import Mathlib

/-!
# VortexShell: a shallow embedding of the execution engine

The C program `VortexShell.c` is a line-oriented command interpreter.  This
development embeds its tokenizer (`parse_command`), its line classifier (the
body of the read loop of `main`) and its five executors, and proves
properties of them.

Conventions of the embedding.

* A C string is the list of its characters before the terminating NUL
  (`CStr`); a `char *` that may be `NULL` is an `Option CStr`.
* The successive results of `strtok(s, d)`, `strtok(NULL, d)`, ... are the
  list `strtok_all d s`; a loop that walks the tokens is a recursion on it.
* A `for`/`while` loop is a recursive function on its loop counter.
* System calls act on an explicit descriptor table (`FdTable`); what the
  interpreter does is recorded as a list of `Action`; what a forked child
  does up to its `execvp` is a list of `ChildAction`.
* Everything the environment decides (whether `pipe`, `open` and `execvp`
  succeed, what `waitpid` reports, what is found in a buffer that is no
  longer live) is a field of `Env`.
* The struct `Command` is laid out as the source declares it (lines 19-25):
  the six pointers of `args`, then `argc`.  A store at `args[6]` is a store
  on `argc`.
-/

namespace VortexShell

/-! ## Constants (lines 11-14 of the source) -/

def MAX_CMD_LEN : Nat := 256
def MAX_ARGS : Nat := 6
def MAX_PIPES : Nat := 5
def MAX_SEQUENTIAL : Nat := 4

/-- A C string: its characters before the terminating NUL. -/
abbrev CStr := List Char

/-! ## C library string functions -/

/-- The copy made by `strncpy(dst, src, n); dst[n] = 0`: the first `n`
characters of `src`. -/
def strncpy (src : CStr) (n : Nat) : CStr := src.take n

/-- Scanner behind `strtok` with a one-character delimiter set: `cur` is the
token being read, in reverse.  A token ends at a delimiter or at the end of
the string; empty tokens are never produced. -/
def strtok_scan (d : Char) : CStr → CStr → List CStr
  | [], cur => if cur = [] then [] else [cur.reverse]
  | c :: cs, cur =>
    if c = d then
      (if cur = [] then strtok_scan d cs [] else cur.reverse :: strtok_scan d cs [])
    else strtok_scan d cs (c :: cur)

/-- The results of `strtok(s, d)`, `strtok(NULL, d)`, ... until `NULL`. -/
def strtok_all (d : Char) (s : CStr) : List CStr := strtok_scan d s []

/-- Whether `needle` starts the string `s` (the comparison `strstr` makes at
one position). -/
def starts_with : CStr → CStr → Bool
  | [], _ => true
  | _ :: _, [] => false
  | n :: ns, c :: cs => n == c && starts_with ns cs

/-- The offset of the first occurrence of `needle` in `hay`, as `strstr`
finds it; `none` is the `NULL` result. -/
def strstr (needle : CStr) : CStr → Option Nat
  | [] => if needle = [] then some 0 else none
  | c :: cs =>
    if starts_with needle (c :: cs) then some 0
    else (strstr needle cs).map (· + 1)

/-- The test `strchr(s, c) != NULL`. -/
def strchr (s : CStr) (c : Char) : Bool := s.contains c

/-- The loop `while (*p == ' ') p++;`. -/
def skip_spaces : CStr → CStr
  | [] => []
  | c :: cs => if c = ' ' then skip_spaces cs else c :: cs

/-- The loop `while (end > token && *end == ' ') *end-- = 0;` on the
reversed string: trailing spaces are removed, but the first character of the
token is never removed. -/
def trim_end_rev : CStr → CStr
  | [] => []
  | [c] => [c]
  | c :: c2 :: cs => if c = ' ' then trim_end_rev (c2 :: cs) else c :: c2 :: cs

/-- Trailing-space removal as written in `main` (lines 158-159). -/
def trim_end (s : CStr) : CStr := (trim_end_rev s.reverse).reverse

/-! ## Command descriptors and the tokenizer -/

/-- The struct `Command` (lines 19-25).  `args` is the argument vector up to
its `NULL` terminator, so `args[0]` is `args.head?`; `argc` is the counter
field, stored right after the six pointers of `args`.  A redirection field
is a pointer to a file name: the value is the name found through it.  In a
descriptor that `parse_command` has just filled, the two pointers point into
its local buffer `input_copy` (lines 233, 238, 244 store the result of
`strtok`, not a copy); see `Command.after_return`. -/
structure Command where
  args : List CStr
  argc : Nat
  input_file : Option CStr
  output_file : Option CStr
  append_output : Nat
  deriving DecidableEq, Repr

/-- The state `parse_command` starts from (lines 221-224), also the
`Command cmd = {0}` initializer. -/
def Command.zero : Command :=
  { args := [], argc := 0, input_file := none, output_file := none, append_output := 0 }

/-- The function `free_command` (lines 264-272): the first `argc` entries
of `args` are freed and set to `NULL`, then `argc` is reset.  With
`argc = 0` no entry is touched, so whatever `args` holds stays. -/
def free_command (cmd : Command) : Command :=
  { cmd with args := if cmd.argc = 0 then cmd.args else [], argc := 0 }

/-- The loop of `parse_command` (lines 231-252) over the remaining tokens:
the head of the list is `token`, and each `strtok(NULL, " ")` takes the next
one.  An argument is stored as a copy (`strdup`); a redirection field is set
to the token itself, a pointer into `input_copy`. -/
def parse_loop : List CStr → Command → Command
  | [], cmd => cmd
  | token :: rest, cmd =>
    if cmd.argc < MAX_ARGS then
      if token = ['<'] then
        match rest with
        | [] => { cmd with input_file := none }
        | f :: rest2 => parse_loop rest2 { cmd with input_file := some f }
      else if token = ['>'] then
        match rest with
        | [] => { cmd with output_file := none, append_output := 0 }
        | f :: rest2 => parse_loop rest2 { cmd with output_file := some f, append_output := 0 }
      else if token = ['>', '>'] then
        match rest with
        | [] => { cmd with output_file := none, append_output := 1 }
        | f :: rest2 => parse_loop rest2 { cmd with output_file := some f, append_output := 1 }
      else
        parse_loop rest { cmd with args := cmd.args ++ [token], argc := cmd.argc + 1 }
    else cmd

/-- The store `cmd->args[cmd->argc] = NULL` (line 253).  While
`argc < MAX_ARGS` it writes the terminator that ends the list `args`.  When
the loop has stored `MAX_ARGS` arguments the store is at `args[6]`, past the
array `char *args[MAX_ARGS]`: these are the bytes of `argc`, which becomes
0, and the six stored pointers stay. -/
def store_terminator (cmd : Command) : Command :=
  if cmd.argc < MAX_ARGS then cmd else { cmd with argc := 0 }

/-- The function `parse_command` (lines 220-261): the loop, the terminator
store of line 253, then the argument-count test.  The redirection fields of
the result are the tokens the pointers were set to, inside the local buffer
`input_copy`; the buffer is dead once the function has returned. -/
def parse_command (input : CStr) : Command :=
  let input_copy := strncpy input (MAX_CMD_LEN - 1)
  let cmd := store_terminator (parse_loop (strtok_all ' ' input_copy) Command.zero)
  if cmd.argc < 1 ∨ cmd.argc > 5 then free_command cmd else cmd

/-! ## Descriptor tables and system calls -/

/-- The flag sets `open` is called with: `O_RDONLY`, and
`O_WRONLY | O_CREAT` with `O_TRUNC` or `O_APPEND`. -/
inductive OpenMode where
  | rdonly
  | wronly_creat_trunc
  | wronly_creat_append
  deriving DecidableEq, Repr

/-- What an open descriptor refers to: a file that was already open when the
run started, one end of the `k`-th pipe the run created, or a file the child
opened for a redirection. -/
inductive File where
  | inherited (n : Nat)
  | pipe_read (k : Nat)
  | pipe_write (k : Nat)
  | opened (path : CStr) (mode : OpenMode)
  deriving DecidableEq, Repr

/-- The descriptor table of one process: entry `fd` is `some f` when `fd` is
open on `f`. -/
abbrev FdTable := List (Option File)

/-- What descriptor `fd` refers to, `none` when it is closed. -/
def lookup (t : FdTable) (fd : Nat) : Option File := (t.get? fd).join

/-- The lowest descriptor number that is not open. -/
def lowest_free : FdTable → Nat
  | [] => 0
  | none :: _ => 0
  | some _ :: t => lowest_free t + 1

/-- Make `fd` refer to `f`. -/
def install : FdTable → Nat → File → FdTable
  | [], 0, f => [some f]
  | [], n + 1, f => none :: install [] n f
  | _ :: t, 0, f => some f :: t
  | x :: t, n + 1, f => x :: install t n f

/-- The call `close(fd)`; closing a descriptor that is not open changes
nothing. -/
def sys_close : FdTable → Nat → FdTable
  | [], _ => []
  | _ :: t, 0 => none :: t
  | x :: t, n + 1 => x :: sys_close t n

/-- The call `dup2(oldfd, newfd)`; it changes nothing when `oldfd` is not
open. -/
def sys_dup2 (t : FdTable) (oldfd newfd : Nat) : FdTable :=
  match lookup t oldfd with
  | none => t
  | some f => install t newfd f

/-- A successful `pipe(p)`, the `k`-th of the run: the two lowest free
descriptors become the read end `p[0]` and the write end `p[1]`. -/
def sys_pipe (t : FdTable) (k : Nat) : (Nat × Nat) × FdTable :=
  let r := lowest_free t
  let t1 := install t r (File.pipe_read k)
  let w := lowest_free t1
  ((r, w), install t1 w (File.pipe_write k))

/-- The status `waitpid` stores: the child exited with a code, or it was
ended by a signal. -/
inductive WaitStatus where
  | exited (code : Nat)
  | signaled (sig : Nat)
  deriving DecidableEq, Repr

/-- The macro `WIFEXITED`. -/
def WIFEXITED : WaitStatus → Bool
  | WaitStatus.exited _ => true
  | WaitStatus.signaled _ => false

/-- The macro `WEXITSTATUS`. -/
def WEXITSTATUS : WaitStatus → Nat
  | WaitStatus.exited code => code
  | WaitStatus.signaled _ => 0

/-- What the environment decides during a run: whether the `i`-th `pipe`
call succeeds, whether a file can be opened in a given mode,
whether `execvp` finds and starts the program, the status `waitpid`
reports for the child forked for command `i`, and the strings that are
found, once `parse_command` has returned and other calls have used its
stack, through the pointers `input_file` and `output_file` it has set to a
given token of its buffer `input_copy`.  (`fork` is taken to succeed: the
source never tests for its failure.) -/
structure Env where
  pipe_ok : Nat → Bool
  open_ok : CStr → OpenMode → Bool
  exec_ok : Option CStr → Bool
  wait_status : Nat → WaitStatus
  stale_input : CStr → CStr
  stale_output : CStr → CStr

/-- The descriptor `parse_command` has filled, as it is read after the
function has returned (lines 209-213 of `main`): the arguments are heap
copies (`strdup`, line 249) and are unchanged; the redirection fields still
point into the dead buffer `input_copy`, and the name found through them is
what the environment has left there. -/
def Command.after_return (env : Env) (cmd : Command) : Command :=
  { cmd with input_file := cmd.input_file.map env.stale_input,
             output_file := cmd.output_file.map env.stale_output }

/-- One call made by a forked child, in program order. -/
inductive ChildAction where
  | setpgid
  | open (path : CStr) (mode : OpenMode) (result : Option Nat)
  | dup2 (oldfd newfd : Nat)
  | close (fd : Nat)
  | execvp (file : Option CStr) (argv : List CStr)
  | printf (msg : String)
  | exit (code : Nat)
  deriving DecidableEq, Repr

/-- One call made by the interpreter process, in program order.  The index
`i` of `fork`, `waitpid` and `free_command` is the index of the command in
its chain. -/
inductive Action where
  | pipe (i : Nat) (result : Option (Nat × Nat))
  | printf (msg : String)
  | fork (i : Nat)
  | close (fd : Nat)
  | waitpid (i : Nat)
  | wait
  | free_command (i : Nat)
  deriving DecidableEq, Repr

/-- The effect of one child call on the child's descriptor table. -/
def child_step (t : FdTable) : ChildAction → FdTable
  | ChildAction.open path mode (some fd) => install t fd (File.opened path mode)
  | ChildAction.dup2 oldfd newfd => sys_dup2 t oldfd newfd
  | ChildAction.close fd => sys_close t fd
  | _ => t

/-- The child's descriptor table after a sequence of calls. -/
def child_table (t : FdTable) (script : List ChildAction) : FdTable :=
  script.foldl child_step t

/-- A forked child: the index of its command, the descriptor it was forked
for, the calls it makes, and its descriptor table when it reaches the end of
those calls (for a child that reaches `execvp`, the table the program
starts with). -/
structure ChildProc where
  index : Nat
  cmd : Command
  script : List ChildAction
  table : FdTable
  deriving DecidableEq, Repr

/-- Standard input of a child when it execs. -/
def ChildProc.stdin (c : ChildProc) : Option File := lookup c.table 0

/-- Standard output of a child when it execs. -/
def ChildProc.stdout (c : ChildProc) : Option File := lookup c.table 1

/-- The outcome of one executor call: the calls of the interpreter, its
descriptor table when the executor returns, and the children it forked, in
fork order. -/
structure Run where
  trace : List Action
  table : FdTable
  children : List ChildProc
  deriving DecidableEq, Repr

/-- A counted loop `for (j = i; j < i + n; j++) body(j)` that emits a list. -/
def loop_from {α : Type} (body : Nat → List α) : Nat → Nat → List α
  | 0, _ => []
  | n + 1, i => body i ++ loop_from body n (i + 1)

/-- A counted loop `for (i = n - 1; i >= 0; i--) body(i)` that emits a
list. -/
def loop_down {α : Type} (body : Nat → List α) : Nat → List α
  | 0 => []
  | i + 1 => body i ++ loop_down body i

/-! ## The executors -/

/-- The end of every child: `execvp(args[0], args)`, and the two statements
after it, which run only when `execvp` returns (lines 302-305, 375-377,
423-425, 582-584). -/
def child_exec (env : Env) (cmd : Command) (msg : String) : List ChildAction :=
  ChildAction.execvp cmd.args.head? cmd.args ::
    (if env.exec_ok cmd.args.head? then [] else [ChildAction.printf msg, ChildAction.exit 1])

/-- Input redirection in the child of `execute_single_command` (lines
282-290): the calls made, and whether the child goes on. -/
def single_child_input (env : Env) (t : FdTable) (cmd : Command) : List ChildAction × Bool :=
  match cmd.input_file with
  | none => ([], true)
  | some path =>
    if env.open_ok path OpenMode.rdonly then
      let fd := lowest_free t
      ([ChildAction.open path OpenMode.rdonly (some fd), ChildAction.dup2 fd 0,
        ChildAction.close fd], true)
    else
      ([ChildAction.open path OpenMode.rdonly none,
        ChildAction.printf "Error: Cannot open input file", ChildAction.exit 1], false)

/-- Output redirection in the child of `execute_single_command` (lines
291-301): the calls made, and whether the child goes on. -/
def single_child_output (env : Env) (t : FdTable) (cmd : Command) : List ChildAction × Bool :=
  match cmd.output_file with
  | none => ([], true)
  | some path =>
    let mode := if cmd.append_output ≠ 0 then OpenMode.wronly_creat_append
                else OpenMode.wronly_creat_trunc
    if env.open_ok path mode then
      let fd := lowest_free t
      ([ChildAction.open path mode (some fd), ChildAction.dup2 fd 1, ChildAction.close fd], true)
    else
      ([ChildAction.open path mode none,
        ChildAction.printf "Error: Cannot open output file", ChildAction.exit 1], false)

/-- The child of `execute_single_command` (lines 279-306). -/
def single_child (env : Env) (t : FdTable) (cmd : Command) : List ChildAction :=
  let a := single_child_input env t cmd
  if a.2 then
    let b := single_child_output env (child_table t a.1) cmd
    if b.2 then
      ChildAction.setpgid :: (a.1 ++ b.1 ++ child_exec env cmd "Error: Command not found")
    else ChildAction.setpgid :: (a.1 ++ b.1)
  else ChildAction.setpgid :: a.1

/-- The function `execute_single_command` (lines 275-309), called for the
command of index `i`. -/
def execute_single_command (env : Env) (t : FdTable) (i : Nat) (cmd : Command) : Run :=
  if cmd.argc = 0 then { trace := [], table := t, children := [] }
  else
    let script := single_child env t cmd
    { trace := [Action.fork i, Action.wait, Action.free_command i],
      table := t,
      children := [{ index := i, cmd := cmd, script := script, table := child_table t script }] }

/-- The loops `while (token && count < limit) { store token; next token }`
of `main` and of `execute_sequential_commands`: at most `limit` tokens are
stored. -/
def take_tokens (limit : Nat) : List CStr → Nat → List CStr
  | [], _ => []
  | token :: rest, count =>
    if count < limit then token :: take_tokens limit rest (count + 1) else []

/-- The descriptor `execute_sequential_commands` builds for one segment
(lines 314-333), before its argument-count test. -/
def sequential_command (segment : CStr) : Command :=
  let command_copy := strncpy segment (MAX_CMD_LEN - 1)
  let args := take_tokens MAX_ARGS (strtok_all ' ' command_copy) 0
  let arg_count := args.length
  if arg_count > 0 then { Command.zero with args := args, argc := arg_count }
  else Command.zero

/-- One iteration of the loop of `execute_sequential_commands` (lines
314-341).  `cmd.argc > 0` stands for the test `arg_count > 0` of line 328.
With six tokens the terminator store of line 333 is at `cmd.args[6]`, on
`cmd.argc`, as in `parse_command`: the test of line 335 then holds by
`argc < 1` instead of `argc > 5`, and the same branch is taken. -/
def sequential_iteration (env : Env) (t : FdTable) (i : Nat) (segment : CStr) : Run :=
  let cmd := sequential_command segment
  if cmd.argc > 0 then
    if cmd.argc < 1 ∨ cmd.argc > 5 then
      { trace := [Action.printf "Error: Command must have 1-5 arguments", Action.free_command i],
        table := t, children := [] }
    else execute_single_command env t i cmd
  else { trace := [], table := t, children := [] }

/-- The loop of `execute_sequential_commands` from index `i` on. -/
def sequential_loop (env : Env) (t : FdTable) : Nat → List CStr → Run
  | _, [] => { trace := [], table := t, children := [] }
  | i, segment :: rest =>
    let r := sequential_iteration env t i segment
    let rs := sequential_loop env r.table (i + 1) rest
    { trace := r.trace ++ rs.trace, table := rs.table, children := r.children ++ rs.children }

/-- The function `execute_sequential_commands` (lines 312-343). -/
def execute_sequential_commands (env : Env) (t : FdTable) (commands : List CStr) : Run :=
  sequential_loop env t 0 commands

/-- The outcome of the pipe-creation loop (lines 351-356, 399-404). -/
structure PipeSetup where
  ok : Bool
  pipes : List (Nat × Nat)
  table : FdTable
  trace : List Action
  deriving DecidableEq, Repr

/-- The pipe-creation loop `for (i = ...; i < num_commands - 1; i++)` with
`n` iterations left: it stops at the first `pipe` that fails. -/
def create_pipes (env : Env) : Nat → Nat → FdTable → PipeSetup
  | 0, _, t => { ok := true, pipes := [], table := t, trace := [] }
  | n + 1, i, t =>
    if env.pipe_ok i then
      let p := sys_pipe t i
      let rest := create_pipes env n (i + 1) p.2
      { rest with pipes := p.1 :: rest.pipes,
                  trace := Action.pipe i (some p.1) :: rest.trace }
    else
      { ok := false, pipes := [], table := t,
        trace := [Action.pipe i none, Action.printf "Error: Pipe creation failed"] }

/-- The read end `pipes[i][0]`. -/
def pipe_rd (pipes : List (Nat × Nat)) (i : Nat) : Nat := (pipes.getD i (0, 0)).1

/-- The write end `pipes[i][1]`. -/
def pipe_wr (pipes : List (Nat × Nat)) (i : Nat) : Nat := (pipes.getD i (0, 0)).2

/-- The loop that closes both ends of every pipe (lines 371-374, 382-385,
419-422, 430-433), as the list of descriptors closed. -/
def close_all (pipes : List (Nat × Nat)) (num_commands : Nat) : List Nat :=
  loop_from (fun j => [pipe_rd pipes j, pipe_wr pipes j]) (num_commands - 1) 0

/-- The child of `handle_pipes` for command `i` (lines 361-378). -/
def pipe_child (env : Env) (pipes : List (Nat × Nat)) (num_commands i : Nat)
    (cmd : Command) : List ChildAction :=
  (if i > 0 then
      [ChildAction.dup2 (pipe_rd pipes (i - 1)) 0, ChildAction.close (pipe_wr pipes (i - 1))]
    else []) ++
  (if i < num_commands - 1 then
      [ChildAction.dup2 (pipe_wr pipes i) 1, ChildAction.close (pipe_rd pipes i)]
    else []) ++
  (close_all pipes num_commands).map ChildAction.close ++
  child_exec env cmd "Error: Command not found"

/-- The child of `handle_reverse_pipes` for command `i` (lines 409-426). -/
def reverse_pipe_child (env : Env) (pipes : List (Nat × Nat)) (num_commands i : Nat)
    (cmd : Command) : List ChildAction :=
  (if i < num_commands - 1 then
      [ChildAction.dup2 (pipe_rd pipes i) 0, ChildAction.close (pipe_wr pipes i)]
    else []) ++
  (if i > 0 then
      [ChildAction.dup2 (pipe_wr pipes (i - 1)) 1, ChildAction.close (pipe_rd pipes (i - 1))]
    else []) ++
  (close_all pipes num_commands).map ChildAction.close ++
  child_exec env cmd "Error: Command not found"

/-- The child forked for command `i` with the given calls, from the
interpreter table `t`. -/
def spawn (t : FdTable) (commands : List Command) (i : Nat) (script : List ChildAction) :
    ChildProc :=
  { index := i, cmd := commands.getD i Command.zero, script := script,
    table := child_table t script }

/-- The function `handle_pipes` (lines 346-391). -/
def handle_pipes (env : Env) (t : FdTable) (commands : List Command) : Run :=
  let num_commands := commands.length
  let setup := create_pipes env (num_commands - 1) 0 t
  if setup.ok then
    { trace := setup.trace ++
        loop_from (fun i => [Action.fork i]) num_commands 0 ++
        (close_all setup.pipes num_commands).map Action.close ++
        loop_from (fun i => [Action.waitpid i, Action.free_command i]) num_commands 0,
      table := (close_all setup.pipes num_commands).foldl sys_close setup.table,
      children := loop_from (fun i => [spawn setup.table commands i
        (pipe_child env setup.pipes num_commands i (commands.getD i Command.zero))])
        num_commands 0 }
  else { trace := setup.trace, table := setup.table, children := [] }

/-- The function `handle_reverse_pipes` (lines 394-439). -/
def handle_reverse_pipes (env : Env) (t : FdTable) (commands : List Command) : Run :=
  let num_commands := commands.length
  let setup := create_pipes env (num_commands - 1) 0 t
  if setup.ok then
    { trace := setup.trace ++
        loop_down (fun i => [Action.fork i]) num_commands ++
        (close_all setup.pipes num_commands).map Action.close ++
        loop_from (fun i => [Action.waitpid i, Action.free_command i]) num_commands 0,
      table := (close_all setup.pipes num_commands).foldl sys_close setup.table,
      children := loop_down (fun i => [spawn setup.table commands i
        (reverse_pipe_child env setup.pipes num_commands i (commands.getD i Command.zero))])
        num_commands }
  else { trace := setup.trace, table := setup.table, children := [] }

/-- The state of the loop of `execute_conditional`: the counter `i`, the
variable `last_status`, and what has been done so far. -/
structure CondState where
  i : Nat
  last_status : Nat
  trace : List Action
  children : List ChildProc
  deriving DecidableEq, Repr

/-- The child of `execute_conditional` (lines 580-585). -/
def conditional_child (env : Env) (cmd : Command) : List ChildAction :=
  ChildAction.setpgid :: child_exec env cmd "Error: Command not found"

/-- The test of line 576-578 on the loop state. -/
def cond_runs (operators : List Char) (s : CondState) : Bool :=
  s.i = 0 ∨ (operators.get? (s.i - 1) = some '&' ∧ s.last_status = 0) ∨
    (operators.get? (s.i - 1) = some '|' ∧ s.last_status ≠ 0)

/-- One iteration of the loop of `execute_conditional` (lines 574-594). -/
def cond_step (env : Env) (t : FdTable) (commands : List Command) (operators : List Char)
    (s : CondState) : CondState :=
  if cond_runs operators s then
    let status := env.wait_status s.i
    { i := s.i + 1,
      last_status := if WIFEXITED status then WEXITSTATUS status else 1,
      trace := s.trace ++ [Action.fork s.i, Action.waitpid s.i, Action.free_command s.i],
      children := s.children ++
        [spawn t commands s.i (conditional_child env (commands.getD s.i Command.zero))] }
  else
    { s with i := s.i + 1, trace := s.trace ++ [Action.free_command s.i] }

/-- The loop state after `n` more iterations. -/
def cond_iterate (env : Env) (t : FdTable) (commands : List Command) (operators : List Char) :
    Nat → CondState → CondState
  | 0, s => s
  | n + 1, s => cond_iterate env t commands operators n (cond_step env t commands operators s)

/-- The loop state of `execute_conditional` after its first `k` iterations
(`last_status` starts at 0, line 573). -/
def cond_state (env : Env) (t : FdTable) (commands : List Command) (operators : List Char)
    (k : Nat) : CondState :=
  cond_iterate env t commands operators k { i := 0, last_status := 0, trace := [], children := [] }

/-- The function `execute_conditional` (lines 572-595). -/
def execute_conditional (env : Env) (t : FdTable) (commands : List Command)
    (operators : List Char) : Run :=
  let s := cond_state env t commands operators commands.length
  { trace := s.trace, table := t, children := s.children }

/-! ## The line classifier: one iteration of the read loop of `main` -/

/-- What one input line is dispatched to (lines 66-214). -/
inductive Dispatch where
  | killterm
  | killallterms
  | pipes (commands : List Command)
  | reverse_pipes (commands : List Command)
  | file_append (file1 file2 : CStr)
  | file_append_error
  | count_words (filename : CStr)
  | concatenate_files (files : List CStr)
  | sequential (commands_str : List CStr)
  | conditional (commands : List Command) (operators : List Char)
  | single (cmd : Command)
  | nothing
  deriving DecidableEq, Repr

/-- Leading and trailing spaces removed as `main` does it (lines 157-159). -/
def trim (token : CStr) : CStr := trim_end (skip_spaces token)

/-- The loop of the `;` branch (lines 156-164): trimmed tokens that are not
empty are stored while fewer than `MAX_SEQUENTIAL` are stored. -/
def sequential_segments : List CStr → Nat → List CStr
  | [], _ => []
  | token :: rest, num_commands =>
    if num_commands < MAX_SEQUENTIAL then
      if (trim token).length > 0 then trim token :: sequential_segments rest (num_commands + 1)
      else sequential_segments rest num_commands
    else []

/-- The test `and_pos && (!or_pos || and_pos < or_pos)` of line 183. -/
def and_first (and_pos or_pos : Option Nat) : Bool :=
  match and_pos, or_pos with
  | some _, none => true
  | some a, some o => a < o
  | none, _ => false

/-- The loop of the conditional branch (lines 180-201) with room for `n`
more commands: the descriptors parsed and the operators recorded, in
order. -/
def conditional_loop : Nat → CStr → List Command × List Char
  | 0, _ => ([], [])
  | n + 1, token =>
    let and_pos := strstr ['&', '&'] token
    let or_pos := strstr ['|', '|'] token
    if and_first and_pos or_pos then
      let pos := and_pos.getD 0
      let rest := conditional_loop n (skip_spaces (token.drop (pos + 2)))
      (parse_command (token.take pos) :: rest.1, '&' :: rest.2)
    else
      match or_pos with
      | some pos =>
        let rest := conditional_loop n (skip_spaces (token.drop (pos + 2)))
        (parse_command (token.take pos) :: rest.1, '|' :: rest.2)
      | none => ([parse_command token], [])

/-- The classifier: the branch of `main` one input line takes, with the
arguments the executor is called with.  `input` is the line as read, its
newline removed. -/
def classify (input : CStr) : Dispatch :=
  if input = "killterm".toList then Dispatch.killterm
  else if input = "killallterms".toList then Dispatch.killallterms
  else if strchr input '|' ∧ (strstr ['|', '|'] input).isNone then
    Dispatch.pipes ((take_tokens (MAX_PIPES + 1) (strtok_all '|' input) 0).map parse_command)
  else if strchr input '=' then
    Dispatch.reverse_pipes
      ((take_tokens (MAX_PIPES + 1) (strtok_all '=' input) 0).map parse_command)
  else if strchr input '~' then
    match strtok_all '~' input with
    | file1 :: file2 :: _ => Dispatch.file_append (trim file1) (trim file2)
    | _ => Dispatch.file_append_error
  else if input.head? = some '#' then Dispatch.count_words (skip_spaces (input.drop 1))
  else if strchr input '+' then
    Dispatch.concatenate_files ((take_tokens (MAX_PIPES + 1) (strtok_all '+' input) 0).map trim)
  else if strchr input ';' then
    let commands_str :=
      sequential_segments (strtok_all ';' (strncpy input (MAX_CMD_LEN - 1))) 0
    if commands_str.length > 0 then Dispatch.sequential commands_str else Dispatch.nothing
  else if (strstr ['&', '&'] input).isSome ∨ (strstr ['|', '|'] input).isSome then
    let r := conditional_loop (MAX_PIPES + 1) (strncpy input (MAX_CMD_LEN - 1))
    if r.1.length > 0 then Dispatch.conditional r.1 r.2 else Dispatch.nothing
  else Dispatch.single (parse_command input)

/-- The processes an input line makes the interpreter create: the executor
the classifier selects is run.  The built-in commands and the file utilities
create no process through the executors and are left as an empty run.  The
single-command executor is the one executor that reads the redirection
fields, and it reads them after `parse_command` has returned
(`Command.after_return`). -/
def run_line (env : Env) (t : FdTable) (input : CStr) : Run :=
  match classify input with
  | Dispatch.pipes commands => handle_pipes env t commands
  | Dispatch.reverse_pipes commands => handle_reverse_pipes env t commands
  | Dispatch.sequential commands_str => execute_sequential_commands env t commands_str
  | Dispatch.conditional commands operators => execute_conditional env t commands operators
  | Dispatch.single cmd =>
    let r := execute_single_command env t 0 (cmd.after_return env)
    { r with trace := r.trace ++ [Action.free_command 0] }
  | _ => { trace := [], table := t, children := [] }

/-! ## Terminating all instances -/

/-- One line of the process listing as `sscanf(line, "%d %s", ...)` reads it
(line 635): the process id and the command name when both fields are read,
`none` otherwise (the header line of `ps`, say). -/
abbrev PsLine := Option (Int × CStr)

/-- The calls `kill_all_shells` makes: `popen` with its outcome, `perror`,
the two `printf` reports, `kill(pid, SIGKILL)` and `pclose`. -/
inductive KillAction where
  | popen (ok : Bool)
  | perror (msg : String)
  | printf_process (proc_id : Int) (command : CStr)
  | printf_self (pid : Int) (self_name : CStr)
  | kill (pid : Int)
  | pclose
  deriving DecidableEq, Repr

/-- The read loop of `kill_all_shells` (lines 630-645) over the remaining
lines of the listing: the calls made, and the flag `self_killed`. -/
def kill_loop (self_name : CStr) (pid : Int) : List PsLine → Bool → List KillAction × Bool
  | [], self_killed => ([], self_killed)
  | none :: rest, self_killed => kill_loop self_name pid rest self_killed
  | some (proc_id, command) :: rest, self_killed =>
    if command = self_name then
      if proc_id ≠ pid then
        let r := kill_loop self_name pid rest self_killed
        (KillAction.printf_process proc_id command :: KillAction.kill proc_id :: r.1, r.2)
      else kill_loop self_name pid rest true
    else kill_loop self_name pid rest self_killed

/-- A call of `kill_all_shells`: the calls made, and whether the function
returns to its caller (it does not after `kill(pid, SIGKILL)` on the
process itself). -/
structure KillRun where
  trace : List KillAction
  returns : Bool
  deriving DecidableEq, Repr

/-- The function `kill_all_shells` (lines 615-653), called in the process
`pid`.  `listing` is `none` when `popen` fails, and the lines read from `ps`
otherwise. -/
def kill_all_shells (listing : Option (List PsLine)) (self_name : CStr) (pid : Int) : KillRun :=
  match listing with
  | none =>
    { trace := [KillAction.popen false, KillAction.perror "Failed to run ps command"],
      returns := true }
  | some lines =>
    let r := kill_loop self_name pid lines false
    if r.2 then
      { trace := KillAction.popen true ::
          (r.1 ++ [KillAction.pclose, KillAction.printf_self pid self_name, KillAction.kill pid]),
        returns := false }
    else { trace := KillAction.popen true :: (r.1 ++ [KillAction.pclose]), returns := true }

/-- What the interpreter does after one input line: it reads the next line,
it terminates with an exit code, or it is terminated by the `SIGKILL` it sent
to itself. -/
inductive Next where
  | read_next_line
  | exit (code : Nat)
  | killed
  deriving DecidableEq, Repr

/-- One iteration of the read loop of `main`, from the line read on. -/
structure Iteration where
  kill_trace : List KillAction
  run : Run
  next : Next

/-- One iteration of the read loop of `main` (lines 54-214) for the line
`input`, its newline removed: the two built-in commands are tested first
(lines 67-73), every other line is dispatched and the loop goes on. -/
def main_iteration (env : Env) (listing : Option (List PsLine)) (self_name : CStr) (pid : Int)
    (t : FdTable) (input : CStr) : Iteration :=
  if input = "killterm".toList then
    { kill_trace := [], run := { trace := [], table := t, children := [] }, next := Next.exit 0 }
  else if input = "killallterms".toList then
    let k := kill_all_shells listing self_name pid
    { kill_trace := k.trace, run := { trace := [], table := t, children := [] },
      next := if k.returns then Next.exit 0 else Next.killed }
  else { kill_trace := [], run := run_line env t input, next := Next.read_next_line }

/-! ## Writes into the argument array -/

/-- The indices at which the loop of `parse_command` writes into `cmd->args`
(line 249, `cmd->args[cmd->argc] = strdup(token)`), in order; `argc` is the
counter when the loop reaches the head of the list.  The branches are those
of `parse_loop`. -/
def parse_loop_writes : List CStr → Nat → List Nat
  | [], _ => []
  | token :: rest, argc =>
    if argc < MAX_ARGS then
      if token = ['<'] then
        match rest with
        | [] => []
        | _ :: rest2 => parse_loop_writes rest2 argc
      else if token = ['>'] then
        match rest with
        | [] => []
        | _ :: rest2 => parse_loop_writes rest2 argc
      else if token = ['>', '>'] then
        match rest with
        | [] => []
        | _ :: rest2 => parse_loop_writes rest2 argc
      else argc :: parse_loop_writes rest (argc + 1)
    else []

/-- The indices at which `parse_command` writes into `cmd->args` up to its
argument-count test: the writes of the loop, then the terminator
`cmd->args[cmd->argc] = NULL` (line 253). -/
def parse_command_writes (input : CStr) : List Nat :=
  let input_copy := strncpy input (MAX_CMD_LEN - 1)
  let tokens := strtok_all ' ' input_copy
  parse_loop_writes tokens 0 ++ [(parse_loop tokens Command.zero).argc]

/-- The indices at which `execute_sequential_commands` writes into `cmd.args`
for one segment (lines 330-333): `cmd.args[j]` for `j < arg_count`, then the
terminator `cmd.args[arg_count] = NULL`; nothing when no token is found. -/
def sequential_command_writes (segment : CStr) : List Nat :=
  let command_copy := strncpy segment (MAX_CMD_LEN - 1)
  let args := take_tokens MAX_ARGS (strtok_all ' ' command_copy) 0
  let arg_count := args.length
  if arg_count > 0 then List.range arg_count ++ [arg_count] else []

/-! ## Vocabulary of the properties -/

/-- The commands a trace spawns a process for: the indices of its `fork`
calls, in order. -/
def forks (trace : List Action) : List Nat :=
  trace.filterMap (fun a => match a with
    | Action.fork i => some i
    | _ => none)

/-- The space-separated tokens of a segment, in the words of the
specification: the pieces between spaces that are not empty. -/
def space_separated_tokens (segment : CStr) : List CStr :=
  (segment.splitOn ' ').filter (fun tok => tok ≠ [])

/-- A redirection operator: one of the tokens `<`, `>`, `>>`. -/
def is_redirection (tok : CStr) : Bool :=
  tok = ['<'] ∨ tok = ['>'] ∨ tok = ['>', '>']

/-- The tokens of a segment that are neither a redirection operator nor the
token that follows one, in order.  Tokens are read from left to right: the
token after an operator is its target, whatever its spelling, and the
reading resumes after the target. -/
def argument_tokens : List CStr → List CStr
  | [] => []
  | tok :: rest =>
    if is_redirection tok then
      match rest with
      | [] => []
      | _ :: rest2 => argument_tokens rest2
    else tok :: argument_tokens rest

/-- The same tokens selected by spelling alone: a token is kept when it is
not spelled like a redirection operator and the token before it is not
either. -/
def arguments_by_spelling (after_operator : Bool) : List CStr → List CStr
  | [] => []
  | tok :: rest =>
    if is_redirection tok then arguments_by_spelling true rest
    else if after_operator then arguments_by_spelling false rest
    else tok :: arguments_by_spelling false rest

/-- No token spelled like a redirection operator comes right after another
one. -/
def operators_apart : List CStr → Bool
  | [] => true
  | [_] => true
  | a :: b :: rest => !(is_redirection a && is_redirection b) && operators_apart (b :: rest)

/-- A valid descriptor: `parse_command` marks an invalid one by `argc = 0`. -/
def Command.valid (cmd : Command) : Prop := cmd.argc ≠ 0

instance (cmd : Command) : Decidable cmd.valid := by
  unfold Command.valid
  infer_instance

/-- The argument-count invariant of a segment, in the words of the
specification: the number of its arguments, redirection tokens excluded, is
between 1 and 5. -/
def argument_count_ok (segment : CStr) : Bool :=
  1 ≤ (argument_tokens (space_separated_tokens segment)).length ∧
    (argument_tokens (space_separated_tokens segment)).length ≤ 5

/-- A trace runs its children one at a time: every `fork` is followed at
once by the wait for that child. -/
def serialized : List Action → Bool
  | [] => true
  | Action.fork _ :: Action.wait :: rest => serialized rest
  | Action.fork i :: Action.waitpid j :: rest => i == j && serialized rest
  | Action.fork _ :: _ => false
  | _ :: rest => serialized rest

/-- The test `execute_sequential_commands` makes before it runs a segment
(lines 328 and 335). -/
def sequential_runs (segment : CStr) : Bool :=
  1 ≤ (sequential_command segment).argc ∧ (sequential_command segment).argc ≤ 5

/-- The interpreter table `T` holds the `n` pipes `pipes` on top of the
table `t` it started from: descriptors `pipes[j]` are the two ends of pipe
`j`, they were closed in `t`, and every other descriptor is as in `t`. -/
def pipe_layout (t T : FdTable) (pipes : List (Nat × Nat)) (n : Nat) : Prop :=
  (∀ j, j < n →
    lookup T (pipe_rd pipes j) = some (File.pipe_read j) ∧
    lookup T (pipe_wr pipes j) = some (File.pipe_write j) ∧
    lookup t (pipe_rd pipes j) = none ∧ lookup t (pipe_wr pipes j) = none) ∧
  (∀ x, (∀ j, j < n → x ≠ pipe_rd pipes j ∧ x ≠ pipe_wr pipes j) → lookup T x = lookup t x)

/-- Standard input and standard output of the interpreter are open on files
it had before the run (a terminal, say). -/
def stdio_inherited (t : FdTable) : Prop :=
  (∃ a, lookup t 0 = some (File.inherited a)) ∧ (∃ b, lookup t 1 = some (File.inherited b))

/-- The calls `dup2(pipes[k][0], 0); close(pipes[k][1])` that take standard
input from pipe `k`, or nothing when standard input is kept. -/
def stdin_redirection (pipes : List (Nat × Nat)) : Option Nat → List ChildAction
  | some k => [ChildAction.dup2 (pipe_rd pipes k) 0, ChildAction.close (pipe_wr pipes k)]
  | none => []

/-- The calls `dup2(pipes[k][1], 1); close(pipes[k][0])` that send standard
output to pipe `k`, or nothing when standard output is kept. -/
def stdout_redirection (pipes : List (Nat × Nat)) : Option Nat → List ChildAction
  | some k => [ChildAction.dup2 (pipe_wr pipes k) 1, ChildAction.close (pipe_rd pipes k)]
  | none => []

/-- The common shape of the children of both pipeline builders: standard
input taken from the read end of pipe `a` (if any), standard output sent to
the write end of pipe `b` (if any), then every pipe descriptor closed, then
`execvp`. -/
def wired_child (env : Env) (pipes : List (Nat × Nat)) (num_commands : Nat)
    (a b : Option Nat) (cmd : Command) : List ChildAction :=
  stdin_redirection pipes a ++ stdout_redirection pipes b ++
  (close_all pipes num_commands).map ChildAction.close ++
  child_exec env cmd "Error: Command not found"

/-- Standard input of a child wired to read pipe `a`, in a run started from
table `t`. -/
def wired_stdin (t : FdTable) : Option Nat → Option File
  | some k => some (File.pipe_read k)
  | none => lookup t 0

/-- Standard output of a child wired to write pipe `b`, in a run started
from table `t`. -/
def wired_stdout (t : FdTable) : Option Nat → Option File
  | some k => some (File.pipe_write k)
  | none => lookup t 1

/-- The pipes a trace creates: the descriptor pairs of its successful `pipe`
calls, in order. -/
def pipes_created (trace : List Action) : List (Nat × Nat) :=
  trace.filterMap (fun a => match a with
    | Action.pipe _ (some p) => some p
    | _ => none)

/-- The wiring of a run: for each child, in fork order, the index of its
command, the descriptor it was forked for, and what its standard input and
standard output refer to when it execs. -/
def wiring (r : Run) : List (Nat × Command × Option File × Option File) :=
  r.children.map (fun c => (c.index, c.cmd, c.stdin, c.stdout))

/-- The line contains the two characters `a a` next to each other (a literal
`||` or `&&`). -/
def contains_pair (a : Char) (input : CStr) : Prop :=
  ∃ p r, input = p ++ a :: a :: r

/-- Whether a child call opens a file. -/
def ChildAction.is_open : ChildAction → Bool
  | ChildAction.open _ _ _ => true
  | _ => false

/-- What the processes of a run do, apart from the descriptor record each
child was forked for: the calls of the interpreter, its descriptor table at
the end, and for each child its index, its calls and the descriptor table it
execs with. -/
def Run.actions (r : Run) : List Action × FdTable × List (Nat × List ChildAction × FdTable) :=
  (r.trace, r.table, r.children.map (fun c => (c.index, c.script, c.table)))

/-- The two chains have the same argument vectors; they may differ in
`input_file`, `output_file` and `append_output`. -/
def same_arguments (commands1 commands2 : List Command) : Prop :=
  commands1.map (fun c => (c.args, c.argc)) = commands2.map (fun c => (c.args, c.argc))

/-- No child of the run opens a file. -/
def opens_nothing (r : Run) : Prop :=
  ∀ c ∈ r.children, ∀ a ∈ c.script, a.is_open = false

/-- How a child ends: it becomes the image of a program, it terminates with
an exit code, or it runs out of calls and goes on in the code of its
caller. -/
inductive ChildEnd where
  | image (file : Option CStr) (argv : List CStr)
  | exited (code : Nat)
  | returned
  deriving DecidableEq, Repr

/-- The end of a child that makes the given calls: `exit` ends it, an
`execvp` that is its last call has replaced its image (an `execvp` followed
by more calls has returned). -/
def child_end : List ChildAction → ChildEnd
  | [] => ChildEnd.returned
  | ChildAction.exit code :: _ => ChildEnd.exited code
  | [ChildAction.execvp file argv] => ChildEnd.image file argv
  | _ :: rest => child_end rest

/-- The files a child opens, in order: path, flags, and whether the open
succeeded. -/
def opens (script : List ChildAction) : List (CStr × OpenMode × Bool) :=
  script.filterMap (fun a => match a with
    | ChildAction.open path mode result => some (path, mode, result.isSome)
    | _ => none)

/-- The input redirect is set and cannot be opened. -/
def input_fails (env : Env) (cmd : Command) : Bool :=
  match cmd.input_file with
  | some path => !env.open_ok path OpenMode.rdonly
  | none => false

/-- The flags for the output redirect: append when the mode is append,
truncate otherwise. -/
def output_mode (cmd : Command) : OpenMode :=
  if cmd.append_output ≠ 0 then OpenMode.wronly_creat_append else OpenMode.wronly_creat_trunc

/-- The output redirect is set and cannot be opened. -/
def output_fails (env : Env) (cmd : Command) : Bool :=
  match cmd.output_file with
  | some path => !env.open_ok path (output_mode cmd)
  | none => false

/-- The open of the input redirect, when one is set. -/
def input_open (env : Env) (cmd : Command) : List (CStr × OpenMode × Bool) :=
  match cmd.input_file with
  | some path => [(path, OpenMode.rdonly, env.open_ok path OpenMode.rdonly)]
  | none => []

/-- The open of the output redirect, when one is set. -/
def output_open (env : Env) (cmd : Command) : List (CStr × OpenMode × Bool) :=
  match cmd.output_file with
  | some path => [(path, output_mode cmd, env.open_ok path (output_mode cmd))]
  | none => []

/-- The targets of the `kill` calls of a trace, in order. -/
def kills (trace : List KillAction) : List Int :=
  trace.filterMap (fun a => match a with
    | KillAction.kill pid => some pid
    | _ => none)

/-- The listed processes whose command name is `self_name` and whose id is
not `pid`, in listing order. -/
def other_instances (lines : List PsLine) (self_name : CStr) (pid : Int) : List Int :=
  ((lines.filterMap id).filter (fun e => decide (e.2 = self_name ∧ e.1 ≠ pid))).map Prod.fst

/-- Every write index of the list is inside the array `args[MAX_ARGS]`. -/
def writes_in_bounds (writes : List Nat) : Prop := ∀ k ∈ writes, k < MAX_ARGS

/-! ## Sample inputs -/

/-- A terminal session: descriptors 0, 1 and 2 are open. -/
def sample_table : FdTable :=
  [some (File.inherited 0), some (File.inherited 1), some (File.inherited 2)]

/-- An environment in which every call succeeds, the child of command 0
exits with code 1 and every other child exits with code 0, and the dead
buffer of `parse_command` reads as a one-byte string that is no token. -/
def sample_env : Env :=
  { pipe_ok := fun _ => true,
    open_ok := fun _ _ => true,
    exec_ok := fun _ => true,
    wait_status := fun i => if i = 0 then WaitStatus.exited 1 else WaitStatus.exited 0,
    stale_input := fun _ => [Char.ofNat 1],
    stale_output := fun _ => [Char.ofNat 1] }

/-- An environment in which the first `pipe` call succeeds and the second
fails (the descriptor limit is reached, say). -/
def second_pipe_fails : Env :=
  { sample_env with pipe_ok := fun i => decide (i < 1) }

/-- The descriptors of `false`, `echo A` and `echo B`. -/
def sample_chain : List Command :=
  [parse_command "false".toList, parse_command "echo A".toList, parse_command "echo B".toList]

/-- Three segments of a `;` chain: the second one has too many arguments. -/
def sample_segments : List CStr :=
  ["false".toList, "a b c d e f".toList, "echo hi".toList]

/-- A conditional line with seven segments. -/
def seven_segments : CStr := "a && b || c && d || e && f && g".toList

/-- The chain `sample_chain` with redirections added to its descriptors. -/
def sample_chain_redirected : List Command :=
  [parse_command "false < in.txt".toList, parse_command "echo A > out.txt".toList,
    parse_command "echo B >> log.txt".toList]

/-- An environment in which `in.txt` cannot be opened and every other call
succeeds. -/
def input_missing : Env :=
  { sample_env with open_ok := fun path _ => decide (path ≠ "in.txt".toList) }

/-- A listing of `ps`: its header line, then two other instances of the
interpreter, another program, and the caller (process 100) between them. -/
def sample_listing : List PsLine :=
  [none, some (90, "w25shell".toList), some (95, "bash".toList), some (100, "w25shell".toList),
    some (120, "w25shell".toList)]

/-- A descriptor for `sort` with its input taken from `in.txt` and its
output sent to `out.txt`. -/
def sort_redirected : Command :=
  { args := ["sort".toList], argc := 1, input_file := some "in.txt".toList,
    output_file := some "out.txt".toList, append_output := 0 }

/-! ## Properties of the conditional runner -/

theorem cond_iterate_succ (env : Env) (t : FdTable) (commands : List Command)
    (operators : List Char) (n : Nat) (s : CondState) :
    cond_iterate env t commands operators (n + 1) s =
      cond_step env t commands operators (cond_iterate env t commands operators n s) := by
  induction n generalizing s with
  | zero => rfl
  | succ n ih =>
    show cond_iterate env t commands operators (n + 1) (cond_step env t commands operators s) = _
    rw [ih]
    rfl

theorem cond_state_succ (env : Env) (t : FdTable) (commands : List Command)
    (operators : List Char) (k : Nat) :
    cond_state env t commands operators (k + 1) =
      cond_step env t commands operators (cond_state env t commands operators k) :=
  cond_iterate_succ env t commands operators k _

theorem forks_append (a b : List Action) : forks (a ++ b) = forks a ++ forks b := by
  simp [forks, List.filterMap_append]

theorem modifyHead_modifyHead {α : Type} (f g : α → α) (l : List α) :
    List.modifyHead f (List.modifyHead g l) = List.modifyHead (fun x => f (g x)) l := by
  cases l <;> rfl

theorem strtok_scan_eq (d : Char) (s cur : CStr) :
    strtok_scan d s cur =
      (List.modifyHead (fun x => cur.reverse ++ x) (s.splitOn d)).filter (fun tok => tok ≠ []) := by
  induction s generalizing cur with
  | nil =>
    by_cases h : cur = [] <;> simp [strtok_scan, List.splitOn, List.modifyHead, h]
  | cons c cs ih =>
    unfold strtok_scan
    have hsplit : (c :: cs).splitOn d =
        if (c == d) = true then [] :: cs.splitOn d
        else List.modifyHead (List.cons c) (cs.splitOn d) := by
      unfold List.splitOn
      exact List.splitOnP_cons _ c cs
    rw [hsplit]
    by_cases hc : c = d
    · subst hc
      have e0 : strtok_scan c cs [] = (cs.splitOn c).filter (fun tok => tok ≠ []) := by
        rw [ih []]
        congr 1
        cases cs.splitOn c <;> simp [List.modifyHead]
      by_cases h : cur = [] <;> simp [List.modifyHead, h, e0]
    · have hb : ¬ ((c == d) = true) := by simpa using hc
      rw [if_neg hc, if_neg hb, ih (c :: cur), modifyHead_modifyHead]
      simp

/-- The results of the successive `strtok` calls are the space-separated
tokens of the string. -/
theorem strtok_all_eq (d : Char) (s : CStr) :
    strtok_all d s = (s.splitOn d).filter (fun tok => tok ≠ []) := by
  unfold strtok_all
  rw [strtok_scan_eq]
  congr 1
  cases s.splitOn d <;> simp [List.modifyHead]

theorem strncpy_of_short (s : CStr) (h : s.length < MAX_CMD_LEN) :
    strncpy s (MAX_CMD_LEN - 1) = s := by
  unfold strncpy
  apply List.take_of_length_le
  unfold MAX_CMD_LEN at *
  omega

theorem argument_tokens_cons_arg (tok : CStr) (rest : List CStr)
    (h : is_redirection tok = false) :
    argument_tokens (tok :: rest) = tok :: argument_tokens rest := by
  rw [argument_tokens.eq_def]
  simp [h]

theorem parse_loop_cons_arg (tok : CStr) (rest : List CStr) (cmd : Command)
    (hroom : cmd.argc < MAX_ARGS) (h : is_redirection tok = false) :
    parse_loop (tok :: rest) cmd =
      parse_loop rest { cmd with args := cmd.args ++ [tok], argc := cmd.argc + 1 } := by
  rw [parse_loop.eq_def]
  simp only [is_redirection, decide_eq_false_iff_not, Bool.or_eq_false_iff, not_or,
    Bool.decide_or] at h
  simp [hroom, h.1, h.2.1, h.2.2]

/-- Reading the tokens from left to right and selecting them by spelling
give the same arguments, unless the target of a redirection is itself
spelled like an operator. -/
theorem argument_tokens_by_spelling (n : Nat) : ∀ l : List CStr, l.length ≤ n →
    operators_apart l = true → argument_tokens l = arguments_by_spelling false l := by
  induction n with
  | zero =>
    intro l hl _
    have : l = [] := List.length_eq_zero.mp (by omega)
    subst this
    rfl
  | succ n ih =>
    intro l hl hap
    cases l with
    | nil => rfl
    | cons tok rest =>
      have hrest : rest.length ≤ n := by simpa using hl
      by_cases hop : is_redirection tok = true
      · cases rest with
        | nil => simp [argument_tokens, arguments_by_spelling, hop]
        | cons b rest2 =>
          have hb : is_redirection b = false := by
            simp only [operators_apart, hop, Bool.true_and, Bool.and_eq_true,
              Bool.not_eq_true'] at hap
            exact hap.1
          have hap2 : operators_apart rest2 = true := by
            cases rest2 with
            | nil => rfl
            | cons c rest3 =>
              simp only [operators_apart, Bool.and_eq_true] at hap
              exact hap.2.2
          have h2 : rest2.length ≤ n := by simp at hrest; omega
          simp [argument_tokens, arguments_by_spelling, hop, hb, ih rest2 h2 hap2]
      · have hop2 : is_redirection tok = false := by simpa using hop
        have hap2 : operators_apart rest = true := by
          cases rest with
          | nil => rfl
          | cons c rest3 =>
            simp only [operators_apart, Bool.and_eq_true] at hap
            exact hap.2
        rw [argument_tokens_cons_arg tok rest hop2, ih rest hrest hap2]
        simp [arguments_by_spelling, hop2]

/-- The loop of `parse_command` appends the argument tokens while there is
room, and stops with `argc = MAX_ARGS` when there are too many. -/
theorem parse_loop_spec (n : Nat) : ∀ (l : List CStr) (cmd : Command), l.length ≤ n →
    cmd.argc ≤ MAX_ARGS →
    (cmd.argc + (argument_tokens l).length < MAX_ARGS →
      (parse_loop l cmd).args = cmd.args ++ argument_tokens l ∧
      (parse_loop l cmd).argc = cmd.argc + (argument_tokens l).length) ∧
    (MAX_ARGS ≤ cmd.argc + (argument_tokens l).length →
      (parse_loop l cmd).argc = MAX_ARGS) := by
  induction n with
  | zero =>
    intro l cmd hl hc
    have : l = [] := List.length_eq_zero.mp (by omega)
    subst this
    simp only [parse_loop, argument_tokens, List.length_nil, Nat.add_zero, List.append_nil]
    exact ⟨fun _ => ⟨trivial, trivial⟩, fun h => by omega⟩
  | succ n ih =>
    intro l cmd hl hc
    cases l with
    | nil =>
      simp only [parse_loop, argument_tokens, List.length_nil, Nat.add_zero, List.append_nil]
      exact ⟨fun _ => ⟨trivial, trivial⟩, fun h => by omega⟩
    | cons tok rest =>
      have hrest : rest.length ≤ n := by simpa using hl
      by_cases hroom : cmd.argc < MAX_ARGS
      · by_cases h1 : tok = ['<']
        · cases rest with
          | nil =>
            simp only [parse_loop, argument_tokens, is_redirection, hroom, h1]
            simp
            intro h; omega
          | cons f rest2 =>
            have h2 : rest2.length ≤ n := by simp at hrest; omega
            have := ih rest2 { cmd with input_file := some f } h2 hc
            simpa only [parse_loop, argument_tokens, is_redirection, hroom, h1, if_true,
              decide_True, true_or, Bool.decide_eq_true] using this
        · by_cases h2 : tok = ['>']
          · cases rest with
            | nil =>
              simp only [parse_loop, argument_tokens, is_redirection, hroom, h2]
              simp
              intro h; omega
            | cons f rest2 =>
              have h3 : rest2.length ≤ n := by simp at hrest; omega
              have := ih rest2 { cmd with output_file := some f, append_output := 0 } h3 hc
              simpa [parse_loop, argument_tokens, is_redirection, hroom, h2] using this
          · by_cases h3 : tok = ['>', '>']
            · cases rest with
              | nil =>
                simp only [parse_loop, argument_tokens, is_redirection, hroom, h3]
                simp
                intro h; omega
              | cons f rest2 =>
                have h4 : rest2.length ≤ n := by simp at hrest; omega
                have := ih rest2 { cmd with output_file := some f, append_output := 1 } h4 hc
                simpa [parse_loop, argument_tokens, is_redirection, hroom, h3] using this
            · have := ih rest { cmd with args := cmd.args ++ [tok], argc := cmd.argc + 1 }
                hrest hroom
              have hr : is_redirection tok = false := by simp [is_redirection, h1, h2, h3]
              rw [parse_loop_cons_arg tok rest cmd hroom hr, argument_tokens_cons_arg tok rest hr]
              simp only [List.append_assoc, List.singleton_append, List.length_cons] at this ⊢
              constructor
              · intro h
                obtain ⟨e1, e2⟩ := this.1 (by omega)
                exact ⟨e1, by rw [e2]; omega⟩
              · intro h
                exact this.2 (by omega)
      · have hfull : cmd.argc = MAX_ARGS := by omega
        rw [parse_loop.eq_def]
        simp only [hroom, if_false]
        exact ⟨fun h => by omega, fun _ => hfull⟩

/-- The argument vector the loop of `parse_command` builds: the argument
tokens are appended until `MAX_ARGS` entries are stored. -/
theorem parse_loop_args (n : Nat) : ∀ (l : List CStr) (cmd : Command), l.length ≤ n →
    (parse_loop l cmd).args = cmd.args ++ (argument_tokens l).take (MAX_ARGS - cmd.argc) := by
  induction n with
  | zero =>
    intro l cmd hl
    have : l = [] := List.length_eq_zero.mp (by omega)
    subst this
    simp [parse_loop, argument_tokens]
  | succ n ih =>
    intro l cmd hl
    cases l with
    | nil => simp [parse_loop, argument_tokens]
    | cons tok rest =>
      have hrest : rest.length ≤ n := by simpa using hl
      by_cases hroom : cmd.argc < MAX_ARGS
      · by_cases h1 : tok = ['<']
        · cases rest with
          | nil => simp [parse_loop, argument_tokens, is_redirection, hroom, h1]
          | cons f rest2 =>
            have h2 : rest2.length ≤ n := by simp at hrest; omega
            have := ih rest2 { cmd with input_file := some f } h2
            simpa [parse_loop, argument_tokens, is_redirection, hroom, h1] using this
        · by_cases h2 : tok = ['>']
          · cases rest with
            | nil => simp [parse_loop, argument_tokens, is_redirection, hroom, h2]
            | cons f rest2 =>
              have h3 : rest2.length ≤ n := by simp at hrest; omega
              have := ih rest2 { cmd with output_file := some f, append_output := 0 } h3
              simpa [parse_loop, argument_tokens, is_redirection, hroom, h2] using this
          · by_cases h3 : tok = ['>', '>']
            · cases rest with
              | nil => simp [parse_loop, argument_tokens, is_redirection, hroom, h3]
              | cons f rest2 =>
                have h4 : rest2.length ≤ n := by simp at hrest; omega
                have := ih rest2 { cmd with output_file := some f, append_output := 1 } h4
                simpa [parse_loop, argument_tokens, is_redirection, hroom, h3] using this
            · have := ih rest { cmd with args := cmd.args ++ [tok], argc := cmd.argc + 1 } hrest
              have hr : is_redirection tok = false := by simp [is_redirection, h1, h2, h3]
              rw [parse_loop_cons_arg tok rest cmd hroom hr, argument_tokens_cons_arg tok rest hr,
                this]
              have e : MAX_ARGS - cmd.argc = (MAX_ARGS - (cmd.argc + 1)) + 1 := by omega
              simp only
              rw [e, List.take_succ_cons, List.append_assoc, List.singleton_append]
      · have hfull : MAX_ARGS - cmd.argc = 0 := by omega
        rw [parse_loop.eq_def]
        simp only [hroom, if_false, hfull, List.take_zero, List.append_nil]

theorem parse_command_short (input : CStr) (h : input.length < MAX_CMD_LEN) :
    parse_command input =
      if (store_terminator (parse_loop (space_separated_tokens input) Command.zero)).argc < 1 ∨
          (store_terminator (parse_loop (space_separated_tokens input) Command.zero)).argc > 5
      then free_command (store_terminator (parse_loop (space_separated_tokens input) Command.zero))
      else store_terminator (parse_loop (space_separated_tokens input) Command.zero) := by
  unfold parse_command
  simp only [strncpy_of_short input h, strtok_all_eq]
  rfl

/-- The descriptor `parse_command` yields, in terms of the argument tokens
of the segment: with one to five of them, the valid descriptor that holds
them; with none, the empty invalid descriptor; with six or more, an invalid
descriptor that still holds the first six. -/
theorem parse_command_cases (input : CStr) (h : input.length < MAX_CMD_LEN) :
    (1 ≤ (argument_tokens (space_separated_tokens input)).length ∧
      (argument_tokens (space_separated_tokens input)).length ≤ 5 ∧
      (parse_command input).args = argument_tokens (space_separated_tokens input) ∧
      (parse_command input).argc = (argument_tokens (space_separated_tokens input)).length) ∨
    ((argument_tokens (space_separated_tokens input)).length = 0 ∧
      (parse_command input).args = [] ∧ (parse_command input).argc = 0) ∨
    (MAX_ARGS ≤ (argument_tokens (space_separated_tokens input)).length ∧
      (parse_command input).args =
        (argument_tokens (space_separated_tokens input)).take MAX_ARGS ∧
      (parse_command input).argc = 0) := by
  have hspec := parse_loop_spec _ (space_separated_tokens input) Command.zero (Nat.le_refl _)
    (by decide)
  have hargs := parse_loop_args _ (space_separated_tokens input) Command.zero (Nat.le_refl _)
  rw [parse_command_short input h]
  have hz : Command.zero.argc = 0 := rfl
  have hza : Command.zero.args = [] := rfl
  rw [hz, hza] at hspec
  rw [hz, hza] at hargs
  simp only [Nat.zero_add, List.nil_append, Nat.sub_zero] at hspec hargs
  rcases Nat.lt_or_ge (argument_tokens (space_separated_tokens input)).length MAX_ARGS
    with hlt | hge
  · obtain ⟨e1, e2⟩ := hspec.1 hlt
    have hst : store_terminator (parse_loop (space_separated_tokens input) Command.zero) =
        parse_loop (space_separated_tokens input) Command.zero := by
      unfold store_terminator
      rw [if_pos (by rw [e2]; exact hlt)]
    rw [hst]
    have h5 : (argument_tokens (space_separated_tokens input)).length ≤ 5 := by
      unfold MAX_ARGS at hlt; omega
    by_cases h0 : 1 ≤ (argument_tokens (space_separated_tokens input)).length
    · left
      have hc : ¬ ((parse_loop (space_separated_tokens input) Command.zero).argc < 1 ∨
          (parse_loop (space_separated_tokens input) Command.zero).argc > 5) := by
        rw [e2]; omega
      rw [if_neg hc]
      exact ⟨h0, h5, e1, e2⟩
    · right; left
      have hc : (parse_loop (space_separated_tokens input) Command.zero).argc < 1 ∨
          (parse_loop (space_separated_tokens input) Command.zero).argc > 5 := by
        rw [e2]; omega
      have hn : (argument_tokens (space_separated_tokens input)).length = 0 := by omega
      rw [if_pos hc]
      refine ⟨hn, ?_, rfl⟩
      unfold free_command
      simp only
      rw [e1]
      have : argument_tokens (space_separated_tokens input) = [] := List.length_eq_zero.mp hn
      rw [this]
      simp
  · right; right
    have e := hspec.2 hge
    have hst : store_terminator (parse_loop (space_separated_tokens input) Command.zero) =
        { parse_loop (space_separated_tokens input) Command.zero with argc := 0 } := by
      unfold store_terminator
      rw [if_neg (by rw [e]; exact Nat.lt_irrefl _)]
    rw [hst]
    have hc : ({ parse_loop (space_separated_tokens input) Command.zero with
          argc := 0 } : Command).argc < 1 ∨
        ({ parse_loop (space_separated_tokens input) Command.zero with
          argc := 0 } : Command).argc > 5 := by
      left; exact Nat.zero_lt_one
    rw [if_pos hc]
    refine ⟨hge, ?_, rfl⟩
    unfold free_command
    simp only [if_true]
    exact hargs

/-- What holds of `parse_command` for every command segment that fits the
input buffer, the tokens read from left to right.  The descriptor is valid
exactly when the segment has between 1 and 5 argument tokens, and then the
argument vector is those tokens in order, counted by `argc`.  An invalid
descriptor (`argc = 0`) retains no argument when the segment has no argument
token; when the segment has six or more, the first six stay in `args`. -/
theorem parse_command_descriptor (input : CStr) (h : input.length < MAX_CMD_LEN) :
    (((parse_command input).argc = 0 ∧
        ((parse_command input).args = [] ∨
          (MAX_ARGS ≤ (argument_tokens (space_separated_tokens input)).length ∧
            (parse_command input).args =
              (argument_tokens (space_separated_tokens input)).take MAX_ARGS))) ∨
      (1 ≤ (parse_command input).args.length ∧ (parse_command input).args.length ≤ 5 ∧
        (parse_command input).argc = (parse_command input).args.length)) ∧
    ((parse_command input).valid ↔
      (1 ≤ (argument_tokens (space_separated_tokens input)).length ∧
        (argument_tokens (space_separated_tokens input)).length ≤ 5)) ∧
    ((parse_command input).valid →
      (parse_command input).args = argument_tokens (space_separated_tokens input)) := by
  unfold Command.valid
  rcases parse_command_cases input h with ⟨h1, h5, ha, hc⟩ | ⟨hn, ha, hc⟩ | ⟨hn, ha, hc⟩
  · refine ⟨Or.inr ?_, ?_, fun _ => ha⟩
    · rw [ha, hc]; exact ⟨h1, h5, rfl⟩
    · rw [hc]
      exact ⟨fun _ => ⟨h1, h5⟩, fun _ => by omega⟩
  · refine ⟨Or.inl ⟨hc, Or.inl ha⟩, ?_, fun hv => absurd hc hv⟩
    rw [hc]
    exact ⟨fun hv => absurd rfl hv, fun hh => by omega⟩
  · refine ⟨Or.inl ⟨hc, Or.inr ⟨hn, ha⟩⟩, ?_, fun hv => absurd hc hv⟩
    rw [hc]
    refine ⟨fun hv => absurd rfl hv, fun hh => ?_⟩
    unfold MAX_ARGS at hn
    omega

theorem parse_command_descriptor_witness :
    (parse_command "sort -r < in.txt >> out.txt".toList).valid ∧
    (parse_command "sort -r < in.txt >> out.txt".toList).args =
      argument_tokens (space_separated_tokens "sort -r < in.txt >> out.txt".toList) :=
  ⟨by decide,
    (parse_command_descriptor "sort -r < in.txt >> out.txt".toList (by decide)).2.2
      (by decide)⟩

/-- C5, evaluated on the code.  For the segment `a b c d e f` (six argument
tokens) `parse_command` yields a descriptor that is marked invalid
(`argc = 0`) and still holds all six arguments: the terminator store of
line 253 is at `args[6]`, on `argc`, so the test of line 256 sees `argc = 0`
and `free_command` frees nothing.  The descriptor is neither an invalid
descriptor with no argument retained nor one with 1 to 5 arguments. -/
theorem parse_command_retains_arguments :
    (parse_loop (strtok_all ' ' "a b c d e f".toList) Command.zero).argc = MAX_ARGS ∧
    (store_terminator (parse_loop (strtok_all ' ' "a b c d e f".toList) Command.zero)).argc = 0 ∧
    (parse_command "a b c d e f".toList).argc = 0 ∧
    ¬ (parse_command "a b c d e f".toList).valid ∧
    (parse_command "a b c d e f".toList).args =
      ["a".toList, "b".toList, "c".toList, "d".toList, "e".toList, "f".toList] ∧
    ¬ (((parse_command "a b c d e f".toList).argc = 0 ∧
          (parse_command "a b c d e f".toList).args = []) ∨
        (1 ≤ (parse_command "a b c d e f".toList).args.length ∧
          (parse_command "a b c d e f".toList).args.length ≤ 5)) := by
  decide

/-- The loop of `parse_command` takes the token after a redirection operator
as its target without looking at it.  In `< > x` the target of `<` is `>`,
and `x` is an argument: the descriptor is valid with argument vector `x`,
although every token of the segment is spelled like a redirection operator
or follows one. -/
theorem parse_command_reads_left_to_right :
    arguments_by_spelling false (space_separated_tokens "< > x".toList) = [] ∧
    argument_tokens (space_separated_tokens "< > x".toList) = ["x".toList] ∧
    (parse_command "< > x".toList).valid ∧
    (parse_command "< > x".toList).args = ["x".toList] ∧
    (parse_command "< > x".toList).input_file = some ">".toList := by
  decide

/-- C6. Argument limit of the tokenizer, evaluated on the code.  A program
name followed by four arguments is accepted, with `argc = 5`; a program name
followed by exactly five arguments is invalidated (`argc = 0`).  The limit
of five counts the program name. -/
theorem parse_command_five_arguments :
    (parse_command "echo a b c d".toList).valid ∧
    (parse_command "echo a b c d".toList).argc = 5 ∧
    (parse_command "echo a b c d e".toList).argc = 0 ∧
    ¬ (parse_command "echo a b c d e".toList).valid := by
  decide

/-! ## Properties of the sequential runner -/

theorem take_tokens_eq (limit : Nat) (l : List CStr) (count : Nat) :
    take_tokens limit l count = l.take (limit - count) := by
  induction l generalizing count with
  | nil => simp [take_tokens]
  | cons tok rest ih =>
    unfold take_tokens
    by_cases h : count < limit
    · rw [if_pos h, ih]
      obtain ⟨m, hm⟩ : ∃ m, limit - count = m + 1 := ⟨limit - count - 1, by omega⟩
      rw [hm, List.take_succ_cons]
      congr 2
      omega
    · rw [if_neg h]
      have : limit - count = 0 := by omega
      rw [this]
      rfl

theorem sequential_iteration_table (env : Env) (t : FdTable) (i : Nat) (segment : CStr) :
    (sequential_iteration env t i segment).table = t := by
  unfold sequential_iteration execute_single_command
  simp only
  split <;> [split <;> [rfl; split <;> rfl]; rfl]

theorem sequential_iteration_runs (env : Env) (t : FdTable) (i : Nat) (segment : CStr)
    (h : sequential_runs segment = true) :
    sequential_iteration env t i segment =
      { trace := [Action.fork i, Action.wait, Action.free_command i],
        table := t,
        children := [{ index := i, cmd := sequential_command segment,
                       script := single_child env t (sequential_command segment),
                       table := child_table t (single_child env t (sequential_command segment)) }] } := by
  simp only [sequential_runs, decide_eq_true_eq] at h
  unfold sequential_iteration execute_single_command
  have h1 : (sequential_command segment).argc > 0 := by omega
  have h2 : ¬ ((sequential_command segment).argc < 1 ∨ (sequential_command segment).argc > 5) := by
    omega
  have h3 : ¬ (sequential_command segment).argc = 0 := by omega
  simp only [h1, h2, h3, if_true, if_false]

theorem sequential_iteration_skips (env : Env) (t : FdTable) (i : Nat) (segment : CStr)
    (h : sequential_runs segment = false) :
    forks (sequential_iteration env t i segment).trace = [] ∧
    (sequential_iteration env t i segment).children = [] ∧
    serialized (sequential_iteration env t i segment).trace = true ∧
    ∀ env2 : Env, (sequential_iteration env2 t i segment).trace =
      (sequential_iteration env t i segment).trace := by
  simp only [sequential_runs, decide_eq_false_iff_not] at h
  unfold sequential_iteration
  by_cases h1 : (sequential_command segment).argc > 0
  · have h2 : (sequential_command segment).argc < 1 ∨ (sequential_command segment).argc > 5 := by
      omega
    refine ⟨?_, ?_, ?_, ?_⟩ <;> simp only [if_pos h1, if_pos h2] <;> simp [forks, serialized]
  · refine ⟨?_, ?_, ?_, ?_⟩ <;> simp only [if_neg h1] <;> simp [forks, serialized]

theorem serialized_fork_wait (i : Nat) (rest : List Action) :
    serialized ([Action.fork i, Action.wait, Action.free_command i] ++ rest) = serialized rest := by
  simp [serialized]

theorem serialized_append_of_no_fork (a b : List Action) (h : forks a = []) :
    serialized (a ++ b) = serialized b := by
  induction a with
  | nil => rfl
  | cons x xs ih =>
    cases x with
    | fork i => simp [forks] at h
    | _ =>
      have hx : forks xs = [] := by simpa [forks] using h
      simpa [serialized] using ih hx

/-- What the loop of the sequential runner does, for any segments: it
spawns the segments that pass its test, in order and one at a time, and
nothing in its trace depends on the environment. -/
theorem sequential_loop_spec (env : Env) (t : FdTable) (segments : List CStr) : ∀ i : Nat,
    forks (sequential_loop env t i segments).trace =
      ((segments.enumFrom i).filter (fun p => sequential_runs p.2)).map (fun p => p.1) ∧
    (sequential_loop env t i segments).children.map (fun c => (c.index, c.cmd)) =
      ((segments.enumFrom i).filter (fun p => sequential_runs p.2)).map
        (fun p => (p.1, sequential_command p.2)) ∧
    (sequential_loop env t i segments).table = t ∧
    serialized (sequential_loop env t i segments).trace = true ∧
    ∀ env2 : Env, (sequential_loop env2 t i segments).trace =
      (sequential_loop env t i segments).trace := by
  induction segments with
  | nil => intro i; exact ⟨rfl, rfl, rfl, rfl, fun _ => rfl⟩
  | cons seg rest ih =>
    intro i
    have htab := sequential_iteration_table env t i seg
    obtain ⟨ihf, ihc, iht, ihs, ihe⟩ := ih (i + 1)
    have hloop : ∀ e : Env, sequential_loop e t i (seg :: rest) =
        { trace := (sequential_iteration e t i seg).trace ++ (sequential_loop e t (i + 1) rest).trace,
          table := (sequential_loop e t (i + 1) rest).table,
          children := (sequential_iteration e t i seg).children ++
            (sequential_loop e t (i + 1) rest).children } := by
      intro e
      rw [sequential_loop]
      simp only [sequential_iteration_table]
    rw [hloop env]
    simp only [List.enumFrom_cons, List.filter_cons]
    by_cases hr : sequential_runs seg = true
    · have hit := sequential_iteration_runs env t i seg hr
      simp only [hr, if_true, List.map_cons]
      refine ⟨?_, ?_, iht, ?_, ?_⟩
      · rw [forks_append, ihf, hit]; rfl
      · rw [List.map_append, ihc, hit]; rfl
      · rw [hit, serialized_fork_wait]; exact ihs
      · intro env2
        rw [hloop env2]
        simp only [sequential_iteration_runs env2 t i seg hr, hit, ihe env2]
    · have hr2 : sequential_runs seg = false := by simpa using hr
      obtain ⟨s1, s2, s3, s4⟩ := sequential_iteration_skips env t i seg hr2
      simp only [hr2, Bool.false_eq_true, if_false]
      refine ⟨?_, ?_, iht, ?_, ?_⟩
      · rw [forks_append, ihf, s1]; rfl
      · rw [List.map_append, ihc, s2]; rfl
      · rw [serialized_append_of_no_fork _ _ s1]; exact ihs
      · intro env2
        rw [hloop env2]
        simp only [s4 env2, ihe env2]

theorem argument_tokens_of_plain (l : List CStr)
    (h : ∀ tok ∈ l, is_redirection tok = false) : argument_tokens l = l := by
  induction l with
  | nil => rfl
  | cons tok rest ih =>
    rw [argument_tokens_cons_arg tok rest (h tok (List.mem_cons_self _ _)),
      ih (fun x hx => h x (List.mem_cons_of_mem _ hx))]

theorem parse_loop_plain (l : List CStr) (h : ∀ tok ∈ l, is_redirection tok = false) :
    ∀ cmd : Command, (parse_loop l cmd).input_file = cmd.input_file ∧
      (parse_loop l cmd).output_file = cmd.output_file ∧
      (parse_loop l cmd).append_output = cmd.append_output := by
  induction l with
  | nil => intro cmd; exact ⟨rfl, rfl, rfl⟩
  | cons tok rest ih =>
    intro cmd
    by_cases hroom : cmd.argc < MAX_ARGS
    · rw [parse_loop_cons_arg tok rest cmd hroom (h tok (List.mem_cons_self _ _))]
      exact ih (fun x hx => h x (List.mem_cons_of_mem _ hx)) _
    · rw [parse_loop.eq_def]
      simp [hroom]

/-- On a segment without redirection operators the sequential runner and
`parse_command` agree: the runner's test is the argument-count invariant,
and the descriptor it runs is the one `parse_command` yields. -/
theorem sequential_agrees_of_plain (segment : CStr) (hshort : segment.length < MAX_CMD_LEN)
    (hplain : ∀ tok ∈ space_separated_tokens segment, is_redirection tok = false) :
    sequential_runs segment = argument_count_ok segment ∧
    (sequential_runs segment = true → sequential_command segment = parse_command segment) := by
  have harg := argument_tokens_of_plain _ hplain
  have hfiles := parse_loop_plain _ hplain Command.zero
  have hcases := parse_command_cases segment hshort
  have hshape := parse_command_short segment hshort
  have hseq : sequential_command segment =
      if ((space_separated_tokens segment).take MAX_ARGS).length > 0 then
        { Command.zero with args := (space_separated_tokens segment).take MAX_ARGS,
                            argc := ((space_separated_tokens segment).take MAX_ARGS).length }
      else Command.zero := by
    unfold sequential_command
    simp only [strncpy_of_short segment hshort, strtok_all_eq, take_tokens_eq]
    rfl
  rw [harg] at hcases
  have hargc : (sequential_command segment).argc =
      min MAX_ARGS (space_separated_tokens segment).length := by
    rw [hseq]
    split
    · simp [List.length_take]
    · rename_i h0
      simp [List.length_take] at h0 ⊢
      have h1 := h0 (by decide)
      simp [h1, Command.zero]
  have hruns : sequential_runs segment = argument_count_ok segment := by
    unfold sequential_runs argument_count_ok
    rw [hargc, harg]
    unfold MAX_ARGS
    congr 1
    apply propext
    omega
  refine ⟨hruns, fun hr => ?_⟩
  rw [hruns] at hr
  simp only [argument_count_ok, harg, decide_eq_true_eq] at hr
  have hfields : (parse_command segment).input_file =
        (parse_loop (space_separated_tokens segment) Command.zero).input_file ∧
      (parse_command segment).output_file =
        (parse_loop (space_separated_tokens segment) Command.zero).output_file ∧
      (parse_command segment).append_output =
        (parse_loop (space_separated_tokens segment) Command.zero).append_output := by
    rw [hshape]
    unfold store_terminator free_command
    split_ifs <;> exact ⟨rfl, rfl, rfl⟩
  rcases hcases with ⟨_, _, ha, hc⟩ | ⟨hn, _, _⟩ | ⟨hn, _, _⟩
  · have htake : (space_separated_tokens segment).take MAX_ARGS = space_separated_tokens segment :=
      List.take_of_length_le (by unfold MAX_ARGS; omega)
    have hpos : ((space_separated_tokens segment).take MAX_ARGS).length > 0 := by
      rw [htake]; omega
    rw [hseq, if_pos hpos, htake]
    obtain ⟨f1, f2, f3⟩ := hfiles
    obtain ⟨g1, g2, g3⟩ := hfields
    rw [f1] at g1
    rw [f2] at g2
    rw [f3] at g3
    cases hp : parse_command segment with
    | mk args argc input_file output_file append_output =>
      rw [hp] at ha hc g1 g2 g3
      simp only at ha hc g1 g2 g3
      simp [Command.zero] at g1 g2 g3
      simp [Command.zero, ha, hc, g1, g2, g3]
  · omega
  · unfold MAX_ARGS at hn
    omega

/-- What holds of the sequential runner on segments that contain no
redirection operator: whatever the environment decides (exit statuses
included), it spawns exactly the segments that satisfy the argument-count
invariant, in their original order, each as the descriptor `parse_command`
yields for it and each waited for before the next is spawned; a segment that
violates the invariant is skipped and the later segments still run; and the
calls the interpreter makes are the same in every environment. -/
theorem sequential_runs_all_valid_segments (env env2 : Env) (t : FdTable)
    (segments : List CStr)
    (hshort : ∀ s ∈ segments, s.length < MAX_CMD_LEN)
    (hplain : ∀ s ∈ segments, ∀ tok ∈ space_separated_tokens s, is_redirection tok = false) :
    forks (execute_sequential_commands env t segments).trace =
      (segments.enum.filter (fun p => argument_count_ok p.2)).map (fun p => p.1) ∧
    (execute_sequential_commands env t segments).children.map (fun c => (c.index, c.cmd)) =
      (segments.enum.filter (fun p => argument_count_ok p.2)).map
        (fun p => (p.1, parse_command p.2)) ∧
    serialized (execute_sequential_commands env t segments).trace = true ∧
    (execute_sequential_commands env2 t segments).trace =
      (execute_sequential_commands env t segments).trace := by
  obtain ⟨hf, hc, _, hs, he⟩ := sequential_loop_spec env t segments 0
  have hfilter : (segments.enumFrom 0).filter (fun p => sequential_runs p.2) =
      segments.enum.filter (fun p => argument_count_ok p.2) := by
    apply List.filter_congr
    intro p hp
    have hmem := List.snd_mem_of_mem_enumFrom hp
    exact (sequential_agrees_of_plain p.2 (hshort _ hmem) (hplain _ hmem)).1
  refine ⟨?_, ?_, hs, he env2⟩
  · rw [← hfilter]; exact hf
  · show (sequential_loop env t 0 segments).children.map (fun c => (c.index, c.cmd)) = _
    rw [hc, hfilter]
    apply List.map_congr_left
    intro p hp
    have hp2 := List.mem_filter.mp hp
    have hmem := List.snd_mem_of_mem_enum hp2.1
    have hag := sequential_agrees_of_plain p.2 (hshort _ hmem) (hplain _ hmem)
    rw [hag.2 (by rw [hag.1]; exact hp2.2)]

theorem sequential_runs_all_valid_segments_witness :
    forks (execute_sequential_commands sample_env sample_table sample_segments).trace =
      (sample_segments.enum.filter (fun p => argument_count_ok p.2)).map (fun p => p.1) ∧
    forks (execute_sequential_commands sample_env sample_table sample_segments).trace = [0, 2] :=
  ⟨(sequential_runs_all_valid_segments sample_env sample_env sample_table sample_segments
      (by decide) (by decide)).1, by decide⟩

/-- C7, evaluated on the code.  In the chain `> f ; a b c d > f` the first
segment has no argument besides its redirection and the second has four, so
only the second satisfies the argument-count invariant; the sequential
runner nevertheless spawns a process for the first and none for the second:
the spawned segments are not the segments that satisfy the invariant. -/
theorem sequential_spawn_set_differs :
    argument_count_ok "> f".toList = false ∧
    argument_count_ok "a b c d > f".toList = true ∧
    classify "> f ; a b c d > f".toList =
      Dispatch.sequential ["> f".toList, "a b c d > f".toList] ∧
    forks (run_line sample_env sample_table "> f ; a b c d > f".toList).trace = [0] ∧
    (run_line sample_env sample_table "> f ; a b c d > f".toList).children.map
        (fun c => (c.index, c.cmd.args)) = [(0, [">".toList, "f".toList])] ∧
    ¬ (forks (execute_sequential_commands sample_env sample_table
        ["> f".toList, "a b c d > f".toList]).trace =
      ((["> f".toList, "a b c d > f".toList].enum.filter
        (fun p => argument_count_ok p.2)).map (fun p => p.1))) := by
  decide

/-- C8, evaluated on the code.  For the segment `ls > out.txt` the
descriptor the sequential runner hands to the single-command executor keeps
`>` and `out.txt` as arguments and has no output redirection, while
`parse_command` yields the argument vector `ls` with output target
`out.txt`; the child of the sequential run opens no file and execs `ls` with
the two extra arguments, where the child of single-command mode has the
argument vector `ls` alone and opens one file for its standard output.  The
name of that file is read through `output_file` after `parse_command` has
returned: the pointer still points into the dead buffer of `parse_command`,
so the name is what the environment has left there, `out.txt` or not. -/
theorem sequential_descriptor_differs :
    sequential_command "ls > out.txt".toList =
      { args := ["ls".toList, ">".toList, "out.txt".toList], argc := 3,
        input_file := none, output_file := none, append_output := 0 } ∧
    parse_command "ls > out.txt".toList =
      { args := ["ls".toList], argc := 1,
        input_file := none, output_file := some "out.txt".toList, append_output := 0 } ∧
    (execute_sequential_commands sample_env sample_table ["ls > out.txt".toList]).children.map
        (fun c => c.script) =
      [[ChildAction.setpgid,
        ChildAction.execvp (some "ls".toList) ["ls".toList, ">".toList, "out.txt".toList]]] ∧
    (∀ env : Env,
      (run_line env sample_table "ls > out.txt".toList).children.map
          (fun c => (c.cmd.args, opens c.script)) =
        [(["ls".toList],
          [(env.stale_output "out.txt".toList, OpenMode.wronly_creat_trunc,
            env.open_ok (env.stale_output "out.txt".toList) OpenMode.wronly_creat_trunc)])]) := by
  refine ⟨by decide, by decide, by decide, fun env => ?_⟩
  have hc : classify "ls > out.txt".toList =
      Dispatch.single { args := ["ls".toList], argc := 1, input_file := none,
                        output_file := some "out.txt".toList, append_output := 0 } := by
    decide
  unfold run_line
  rw [hc]
  simp only [Command.after_return, Option.map_some', Option.map_none']
  generalize env.stale_output "out.txt".toList = path
  cases hopen : env.open_ok path OpenMode.wronly_creat_trunc <;>
    cases hexec : env.exec_ok (some ['l', 's']) <;>
    simp [execute_single_command, single_child, single_child_input,
      single_child_output, child_exec, opens, hopen, hexec]

/-! ## Invalid descriptors in chains -/

/-- C4, evaluated on the code.  In the pipeline `ls | > out.txt` the second
segment has no argument and is marked invalid by `parse_command`, yet
`handle_pipes` forks a child for it (index 1), which calls `execvp` with a
`NULL` program, and `ls` is wired to the pipe although alone it would write
to the inherited standard output.  The reverse pipeline `> out.txt = cat`
and the conditional chain `> out.txt || echo x` fork a child for their
invalid first segment as well. -/
theorem invalid_descriptor_is_spawned :
    ¬ (parse_command " > out.txt".toList).valid ∧
    classify "ls | > out.txt".toList =
      Dispatch.pipes [parse_command "ls ".toList, parse_command " > out.txt".toList] ∧
    forks (run_line sample_env sample_table "ls | > out.txt".toList).trace = [0, 1] ∧
    (run_line sample_env sample_table "ls | > out.txt".toList).children.map
        (fun c => (c.index, c.cmd.argc, c.script.getLast?)) =
      [(0, 1, some (ChildAction.execvp (some "ls".toList) ["ls".toList])),
       (1, 0, some (ChildAction.execvp none []))] ∧
    (run_line sample_env sample_table "ls | > out.txt".toList).children.map
        (fun c => (c.stdin, c.stdout)) =
      [(some (File.inherited 0), some (File.pipe_write 0)),
       (some (File.pipe_read 0), some (File.inherited 1))] ∧
    (run_line sample_env sample_table "ls".toList).children.map
        (fun c => (c.stdin, c.stdout)) =
      [(some (File.inherited 0), some (File.inherited 1))] ∧
    ¬ (parse_command "> out.txt ".toList).valid ∧
    forks (run_line sample_env sample_table "> out.txt = cat".toList).trace = [1, 0] ∧
    forks (run_line sample_env sample_table "> out.txt || echo x".toList).trace = [0, 1] := by
  decide

/-! ## Properties of the classifier on conditional chains -/

theorem starts_with_pair (a : Char) (s : CStr) :
    starts_with [a, a] s = true ↔ ∃ r, s = a :: a :: r := by
  cases s with
  | nil => simp [starts_with]
  | cons x xs =>
    cases xs with
    | nil => simp [starts_with]
    | cons y ys =>
      simp only [starts_with, Bool.and_true, Bool.and_eq_true, beq_iff_eq]
      constructor
      · rintro ⟨rfl, rfl⟩; exact ⟨ys, rfl⟩
      · rintro ⟨r, hr⟩
        simp only [List.cons.injEq] at hr
        exact ⟨hr.1.symm, hr.2.1.symm⟩

theorem strchr_iff (s : CStr) (c : Char) : strchr s c = true ↔ c ∈ s := by
  simp [strchr]

theorem lookup_nil (x : Nat) : lookup [] x = none := by
  simp [lookup]

theorem lookup_cons_zero (a : Option File) (t : FdTable) : lookup (a :: t) 0 = a := by
  simp [lookup]

theorem lookup_cons_succ (a : Option File) (t : FdTable) (x : Nat) :
    lookup (a :: t) (x + 1) = lookup t x := by
  simp [lookup]

theorem lookup_install (t : FdTable) (fd : Nat) (f : File) (x : Nat) :
    lookup (install t fd f) x = if x = fd then some f else lookup t x := by
  induction t generalizing fd x with
  | nil =>
    induction fd generalizing x with
    | zero =>
      cases x with
      | zero => simp [install, lookup_cons_zero]
      | succ x => simp [install, lookup_cons_succ, lookup_nil]
    | succ n ih =>
      cases x with
      | zero => simp [install, lookup_cons_zero, lookup_nil]
      | succ x => simp [install, lookup_cons_succ, ih, lookup_nil]
  | cons a t ih =>
    cases fd with
    | zero =>
      cases x with
      | zero => simp [install, lookup_cons_zero]
      | succ x => simp [install, lookup_cons_succ]
    | succ n =>
      cases x with
      | zero => simp [install, lookup_cons_zero]
      | succ x => simp [install, lookup_cons_succ, ih]

theorem lookup_close (t : FdTable) (fd x : Nat) :
    lookup (sys_close t fd) x = if x = fd then none else lookup t x := by
  induction t generalizing fd x with
  | nil => simp [sys_close, lookup_nil]
  | cons a t ih =>
    cases fd with
    | zero =>
      cases x with
      | zero => simp [sys_close, lookup_cons_zero]
      | succ x => simp [sys_close, lookup_cons_succ]
    | succ n =>
      cases x with
      | zero => simp [sys_close, lookup_cons_zero]
      | succ x => simp [sys_close, lookup_cons_succ, ih]

theorem lookup_dup2 (t : FdTable) (oldfd newfd x : Nat) (f : File)
    (h : lookup t oldfd = some f) :
    lookup (sys_dup2 t oldfd newfd) x = if x = newfd then some f else lookup t x := by
  unfold sys_dup2
  rw [h]
  exact lookup_install t newfd f x

theorem lookup_lowest_free (t : FdTable) : lookup t (lowest_free t) = none := by
  induction t with
  | nil => simp [lowest_free, lookup_nil]
  | cons a t ih =>
    cases a with
    | none => simp [lowest_free, lookup_cons_zero]
    | some f => simp [lowest_free, lookup_cons_succ, ih]

theorem lookup_close_list (fds : List Nat) (t : FdTable) (x : Nat) :
    lookup (fds.foldl sys_close t) x = if x ∈ fds then none else lookup t x := by
  induction fds generalizing t with
  | nil => simp
  | cons fd rest ih =>
    rw [List.foldl_cons, ih, lookup_close]
    by_cases h1 : x = fd <;> by_cases h2 : x ∈ rest <;> simp [h1, h2]

/-- What a successful `pipe` does to the table: its two descriptors were
closed before and are different, afterwards they are the two ends of the
pipe, and nothing else changes. -/
theorem sys_pipe_spec (t : FdTable) (k : Nat) :
    lookup t (sys_pipe t k).1.1 = none ∧ lookup t (sys_pipe t k).1.2 = none ∧
    (sys_pipe t k).1.1 ≠ (sys_pipe t k).1.2 ∧
    ∀ x, lookup (sys_pipe t k).2 x =
      if x = (sys_pipe t k).1.2 then some (File.pipe_write k)
      else if x = (sys_pipe t k).1.1 then some (File.pipe_read k) else lookup t x := by
  have hr := lookup_lowest_free t
  have hw := lookup_lowest_free (install t (lowest_free t) (File.pipe_read k))
  rw [lookup_install] at hw
  have hne : lowest_free (install t (lowest_free t) (File.pipe_read k)) ≠ lowest_free t := by
    intro e
    rw [if_pos e] at hw
    exact absurd hw (by simp)
  rw [if_neg hne] at hw
  refine ⟨hr, hw, fun e => hne e.symm, fun x => ?_⟩
  show lookup (install (install t (lowest_free t) (File.pipe_read k)) _ _) x = _
  rw [lookup_install, lookup_install]
  rfl

/-! ## Pipe creation -/

theorem pipe_rd_cons_zero (p : Nat × Nat) (ps : List (Nat × Nat)) : pipe_rd (p :: ps) 0 = p.1 :=
  rfl

theorem pipe_wr_cons_zero (p : Nat × Nat) (ps : List (Nat × Nat)) : pipe_wr (p :: ps) 0 = p.2 :=
  rfl

theorem pipe_rd_cons_succ (p : Nat × Nat) (ps : List (Nat × Nat)) (j : Nat) :
    pipe_rd (p :: ps) (j + 1) = pipe_rd ps j := rfl

theorem pipe_wr_cons_succ (p : Nat × Nat) (ps : List (Nat × Nat)) (j : Nat) :
    pipe_wr (p :: ps) (j + 1) = pipe_wr ps j := rfl

/-- When every `pipe` call succeeds, the creation loop yields `n` pipes whose
descriptors were closed before the loop; afterwards they are the ends of
pipes `i`, `i + 1`, ..., and every other descriptor is unchanged. -/
theorem create_pipes_spec (env : Env) (n : Nat) :
    ∀ (i : Nat) (t : FdTable), (∀ j, j < i + n → env.pipe_ok j = true) →
    (create_pipes env n i t).ok = true ∧
    (create_pipes env n i t).pipes.length = n ∧
    (create_pipes env n i t).trace =
      (List.range n).map (fun j => Action.pipe (i + j)
        (some (pipe_rd (create_pipes env n i t).pipes j, pipe_wr (create_pipes env n i t).pipes j))) ∧
    (∀ j, j < n →
      lookup (create_pipes env n i t).table (pipe_rd (create_pipes env n i t).pipes j) =
        some (File.pipe_read (i + j)) ∧
      lookup (create_pipes env n i t).table (pipe_wr (create_pipes env n i t).pipes j) =
        some (File.pipe_write (i + j)) ∧
      lookup t (pipe_rd (create_pipes env n i t).pipes j) = none ∧
      lookup t (pipe_wr (create_pipes env n i t).pipes j) = none) ∧
    (∀ x, (∀ j, j < n → x ≠ pipe_rd (create_pipes env n i t).pipes j ∧
        x ≠ pipe_wr (create_pipes env n i t).pipes j) →
      lookup (create_pipes env n i t).table x = lookup t x) := by
  induction n with
  | zero =>
    intro i t _
    simp [create_pipes]
  | succ n ih =>
    intro i t hok
    obtain ⟨hr, hw, hne, hlook⟩ := sys_pipe_spec t i
    obtain ⟨ih1, ih2, ih3, ih4, ih5⟩ := ih (i + 1) (sys_pipe t i).2
      (fun j hj => hok j (by omega))
    have hdef : create_pipes env (n + 1) i t =
        { create_pipes env n (i + 1) (sys_pipe t i).2 with
          pipes := (sys_pipe t i).1 :: (create_pipes env n (i + 1) (sys_pipe t i).2).pipes,
          trace := Action.pipe i (some (sys_pipe t i).1) ::
            (create_pipes env n (i + 1) (sys_pipe t i).2).trace } := by
      rw [create_pipes]
      simp only [hok i (by omega), if_true]
    rw [hdef]
    -- the descriptors of the later pipes differ from those of this one
    have hfresh : ∀ j, j < n →
        pipe_rd (create_pipes env n (i + 1) (sys_pipe t i).2).pipes j ≠ (sys_pipe t i).1.1 ∧
        pipe_rd (create_pipes env n (i + 1) (sys_pipe t i).2).pipes j ≠ (sys_pipe t i).1.2 ∧
        pipe_wr (create_pipes env n (i + 1) (sys_pipe t i).2).pipes j ≠ (sys_pipe t i).1.1 ∧
        pipe_wr (create_pipes env n (i + 1) (sys_pipe t i).2).pipes j ≠ (sys_pipe t i).1.2 := by
      intro j hj
      obtain ⟨_, _, f1, f2⟩ := ih4 j hj
      rw [hlook] at f1 f2
      refine ⟨?_, ?_, ?_, ?_⟩ <;> intro e
      · rw [e] at f1; simp [hne] at f1
      · rw [e] at f1; simp at f1
      · rw [e] at f2; simp [hne] at f2
      · rw [e] at f2; simp at f2
    refine ⟨ih1, by simp [ih2], ?_, ?_, ?_⟩
    · simp only
      rw [List.range_succ_eq_map, List.map_cons, List.map_map, ih3]
      congr 1
      apply List.map_congr_left
      intro j _
      simp only [Function.comp, pipe_rd_cons_succ, pipe_wr_cons_succ]
      congr 1
      omega
    · intro j hj
      cases j with
      | zero =>
        simp only [pipe_rd_cons_zero, pipe_wr_cons_zero, Nat.add_zero]
        have e1 := ih5 (sys_pipe t i).1.1 (fun j hj => ⟨(hfresh j hj).1.symm, (hfresh j hj).2.2.1.symm⟩)
        have e2 := ih5 (sys_pipe t i).1.2 (fun j hj => ⟨(hfresh j hj).2.1.symm, (hfresh j hj).2.2.2.symm⟩)
        refine ⟨?_, ?_, hr, hw⟩
        · rw [e1, hlook]; simp [hne]
        · rw [e2, hlook]; simp
      | succ j =>
        have hj2 : j < n := by omega
        obtain ⟨g1, g2, g3, g4⟩ := ih4 j hj2
        obtain ⟨a1, a2, a3, a4⟩ := hfresh j hj2
        simp only [pipe_rd_cons_succ, pipe_wr_cons_succ]
        have ei : i + (j + 1) = i + 1 + j := by omega
        rw [ei]
        refine ⟨g1, g2, ?_, ?_⟩
        · rw [hlook] at g3; simpa [a1, a2] using g3
        · rw [hlook] at g4; simpa [a3, a4] using g4
    · intro x hx
      have h0 := hx 0 (by omega)
      simp only [pipe_rd_cons_zero, pipe_wr_cons_zero] at h0
      have hrest := ih5 x (fun j hj => by
        have := hx (j + 1) (by omega)
        simpa only [pipe_rd_cons_succ, pipe_wr_cons_succ] using this)
      simp only
      rw [hrest, hlook]
      simp [h0.1, h0.2]

/-! ## Loops and child tables -/

theorem loop_from_singleton {α : Type} (f : Nat → α) (n : Nat) : ∀ i : Nat,
    loop_from (fun j => [f j]) n i = (List.range n).map (fun j => f (i + j)) := by
  induction n with
  | zero => intro i; rfl
  | succ n ih =>
    intro i
    rw [loop_from, ih, List.range_succ_eq_map, List.map_cons, List.map_map]
    simp only [List.singleton_append, Nat.add_zero, List.cons.injEq, true_and]
    apply List.map_congr_left
    intro j _
    simp only [Function.comp]
    congr 1
    omega

theorem loop_down_singleton {α : Type} (f : Nat → α) (n : Nat) :
    loop_down (fun j => [f j]) n = (List.range n).reverse.map f := by
  induction n with
  | zero => rfl
  | succ n ih =>
    rw [loop_down, ih, List.range_succ, List.reverse_append]
    rfl

theorem mem_loop_from {α : Type} (body : Nat → List α) (x : α) (n : Nat) : ∀ i : Nat,
    x ∈ loop_from body n i ↔ ∃ j, j < n ∧ x ∈ body (i + j) := by
  induction n with
  | zero => intro i; simp [loop_from]
  | succ n ih =>
    intro i
    rw [loop_from, List.mem_append, ih]
    constructor
    · rintro (h | ⟨j, hj, h⟩)
      · exact ⟨0, by omega, h⟩
      · exact ⟨j + 1, by omega, by rwa [show i + (j + 1) = i + 1 + j by omega]⟩
    · rintro ⟨j, hj, h⟩
      cases j with
      | zero => exact Or.inl h
      | succ j => exact Or.inr ⟨j, by omega, by rwa [show i + 1 + j = i + (j + 1) by omega]⟩

theorem mem_close_all (pipes : List (Nat × Nat)) (num_commands x : Nat) :
    x ∈ close_all pipes num_commands ↔
      ∃ j, j < num_commands - 1 ∧ (x = pipe_rd pipes j ∨ x = pipe_wr pipes j) := by
  unfold close_all
  rw [mem_loop_from]
  simp

theorem child_table_append (t : FdTable) (a b : List ChildAction) :
    child_table t (a ++ b) = child_table (child_table t a) b := by
  simp [child_table, List.foldl_append]

theorem child_table_close (t : FdTable) (fds : List Nat) :
    child_table t (fds.map ChildAction.close) = fds.foldl sys_close t := by
  induction fds generalizing t with
  | nil => rfl
  | cons fd rest ih =>
    show child_table (child_step t (ChildAction.close fd)) (rest.map ChildAction.close) = _
    rw [ih]
    rfl

theorem child_table_exec (env : Env) (t : FdTable) (cmd : Command) (msg : String) :
    child_table t (child_exec env cmd msg) = t := by
  unfold child_exec
  split <;> rfl

theorem lookup_dup2_ne (t : FdTable) (oldfd newfd x : Nat) (h : x ≠ newfd) :
    lookup (sys_dup2 t oldfd newfd) x = lookup t x := by
  unfold sys_dup2
  split
  · rfl
  · rw [lookup_install, if_neg h]

theorem lookup_dup2_self (t : FdTable) (oldfd newfd : Nat) (f : File)
    (h : lookup t oldfd = some f) : lookup (sys_dup2 t oldfd newfd) newfd = some f := by
  rw [lookup_dup2 t oldfd newfd newfd f h, if_pos rfl]

/-- The redirection step of a pipeline child, `dup2(src, dst); close(other)`:
`dst` becomes what `src` refers to, `other` is closed, the rest is kept. -/
theorem lookup_redirect (t : FdTable) (src dst other x : Nat) (f : File)
    (hsrc : lookup t src = some f) (hne : other ≠ dst) :
    lookup (child_table t [ChildAction.dup2 src dst, ChildAction.close other]) x =
      if x = dst then some f else if x = other then none else lookup t x := by
  show lookup (sys_close (sys_dup2 t src dst) other) x = _
  rw [lookup_close]
  by_cases hx : x = dst
  · subst hx
    rw [if_neg (Ne.symm hne), if_pos rfl, lookup_dup2_self _ _ _ _ hsrc]
  · rw [if_neg hx, lookup_dup2_ne _ _ _ _ hx]

theorem pipe_child_eq_wired (env : Env) (pipes : List (Nat × Nat)) (num_commands i : Nat)
    (cmd : Command) :
    pipe_child env pipes num_commands i cmd =
      wired_child env pipes num_commands (if i > 0 then some (i - 1) else none)
        (if i < num_commands - 1 then some i else none) cmd := by
  unfold pipe_child wired_child
  by_cases h1 : i > 0 <;> by_cases h2 : i < num_commands - 1 <;>
    simp [h1, h2, stdin_redirection, stdout_redirection]

theorem reverse_pipe_child_eq_wired (env : Env) (pipes : List (Nat × Nat))
    (num_commands i : Nat) (cmd : Command) :
    reverse_pipe_child env pipes num_commands i cmd =
      wired_child env pipes num_commands (if i < num_commands - 1 then some i else none)
        (if i > 0 then some (i - 1) else none) cmd := by
  unfold reverse_pipe_child wired_child
  by_cases h1 : i > 0 <;> by_cases h2 : i < num_commands - 1 <;>
    simp [h1, h2, stdin_redirection, stdout_redirection]

theorem create_pipes_layout (env : Env) (n : Nat) (hok : ∀ i, i < n → env.pipe_ok i = true)
    (t : FdTable) :
    pipe_layout t (create_pipes env n 0 t).table (create_pipes env n 0 t).pipes n := by
  obtain ⟨_, _, _, h4, h5⟩ := create_pipes_spec env n 0 t (fun j hj => hok j (by omega))
  refine ⟨fun j hj => ?_, h5⟩
  have := h4 j hj
  simpa using this

/-- The descriptor table a pipeline child execs with. -/
theorem wired_child_table (env : Env) (t T : FdTable) (pipes : List (Nat × Nat))
    (num_commands : Nat) (a b : Option Nat) (cmd : Command)
    (hlay : pipe_layout t T pipes (num_commands - 1))
    (h0 : lookup t 0 ≠ none) (h1 : lookup t 1 ≠ none)
    (ha : ∀ k, a = some k → k < num_commands - 1)
    (hb : ∀ k, b = some k → k < num_commands - 1)
    (hab : ∀ k, a = some k → b ≠ some k) :
    lookup (child_table T (wired_child env pipes num_commands a b cmd)) 0 = wired_stdin t a ∧
    lookup (child_table T (wired_child env pipes num_commands a b cmd)) 1 = wired_stdout t b ∧
    (∀ j, j < num_commands - 1 →
      lookup (child_table T (wired_child env pipes num_commands a b cmd)) (pipe_rd pipes j) = none ∧
      lookup (child_table T (wired_child env pipes num_commands a b cmd)) (pipe_wr pipes j) = none) ∧
    (∀ x, x ≠ 0 → x ≠ 1 →
      (∀ j, j < num_commands - 1 → x ≠ pipe_rd pipes j ∧ x ≠ pipe_wr pipes j) →
      lookup (child_table T (wired_child env pipes num_commands a b cmd)) x = lookup t x) := by
  obtain ⟨hends, hrest⟩ := hlay
  -- pipe descriptors are neither 0 nor 1
  have hfd : ∀ j, j < num_commands - 1 →
      pipe_rd pipes j ≠ 0 ∧ pipe_rd pipes j ≠ 1 ∧ pipe_wr pipes j ≠ 0 ∧ pipe_wr pipes j ≠ 1 := by
    intro j hj
    obtain ⟨_, _, f1, f2⟩ := hends j hj
    refine ⟨?_, ?_, ?_, ?_⟩ <;> intro e
    · rw [e] at f1; exact h0 f1
    · rw [e] at f1; exact h1 f1
    · rw [e] at f2; exact h0 f2
    · rw [e] at f2; exact h1 f2
  -- descriptors of different ends are different
  have hrw : ∀ j k, j < num_commands - 1 → k < num_commands - 1 →
      pipe_rd pipes j ≠ pipe_wr pipes k := by
    intro j k hj hk e
    have f1 := (hends j hj).1
    have f2 := (hends k hk).2.1
    rw [e, f2] at f1
    simp at f1
  have hww : ∀ j k, j < num_commands - 1 → k < num_commands - 1 → j ≠ k →
      pipe_wr pipes j ≠ pipe_wr pipes k := by
    intro j k hj hk hjk e
    have f1 := (hends j hj).2.1
    have f2 := (hends k hk).2.1
    rw [e, f2] at f1
    simp only [Option.some.injEq, File.pipe_write.injEq] at f1
    exact hjk f1.symm
  have hT0 : lookup T 0 = lookup t 0 :=
    hrest 0 (fun j hj => ⟨(hfd j hj).1.symm, (hfd j hj).2.2.1.symm⟩)
  have hT1 : lookup T 1 = lookup t 1 :=
    hrest 1 (fun j hj => ⟨(hfd j hj).2.1.symm, (hfd j hj).2.2.2.symm⟩)
  have hnot0 : 0 ∉ close_all pipes num_commands := by
    rw [mem_close_all]
    rintro ⟨j, hj, e | e⟩
    · exact (hfd j hj).1 e.symm
    · exact (hfd j hj).2.2.1 e.symm
  have hnot1 : 1 ∉ close_all pipes num_commands := by
    rw [mem_close_all]
    rintro ⟨j, hj, e | e⟩
    · exact (hfd j hj).2.1 e.symm
    · exact (hfd j hj).2.2.2 e.symm
  -- the table after the two redirections
  have hfinal : ∀ x, lookup (child_table T (wired_child env pipes num_commands a b cmd)) x =
      if x ∈ close_all pipes num_commands then none
      else lookup (child_table (child_table T
        (stdin_redirection pipes a)) (stdout_redirection pipes b)) x := by
    intro x
    unfold wired_child
    rw [child_table_append, child_table_append, child_table_append, child_table_exec,
      child_table_close, lookup_close_list]
  have hAn : a = none → ∀ x, lookup (child_table T (stdin_redirection pipes a)) x =
      lookup T x := by
    intro e x
    subst e
    rfl
  have hAs : ∀ k, a = some k → ∀ x, lookup (child_table T (stdin_redirection pipes a)) x =
      if x = 0 then some (File.pipe_read k)
      else if x = pipe_wr pipes k then none else lookup T x := by
    intro k e x
    subst e
    have hk := ha k rfl
    exact lookup_redirect T _ 0 _ x _ (hends k hk).1 (hfd k hk).2.2.1
  have hBn : b = none → ∀ (U : FdTable) (x : Nat),
      lookup (child_table U (stdout_redirection pipes b)) x = lookup U x := by
    intro e U x
    subst e
    rfl
  have hBs : ∀ k, b = some k → ∀ (U : FdTable) (x : Nat),
      lookup U (pipe_wr pipes k) = some (File.pipe_write k) →
      lookup (child_table U (stdout_redirection pipes b)) x =
        if x = 1 then some (File.pipe_write k)
        else if x = pipe_rd pipes k then none else lookup U x := by
    intro k e U x hU
    subst e
    have hk := hb k rfl
    exact lookup_redirect U _ 1 _ x _ hU (hfd k hk).2.1
  have hU : ∀ k, b = some k → lookup (child_table T (stdin_redirection pipes a))
      (pipe_wr pipes k) = some (File.pipe_write k) := by
    intro k hbk
    have hk := hb k hbk
    rcases Option.eq_none_or_eq_some a with ha2 | ⟨k2, ha2⟩
    · rw [hAn ha2]
      exact (hends k hk).2.1
    · have hk2 := ha k2 ha2
      have hne : k ≠ k2 := fun e => hab k2 ha2 (e ▸ hbk)
      rw [hAs k2 ha2, if_neg (hfd k hk).2.2.1, if_neg (hww k k2 hk hk2 hne)]
      exact (hends k hk).2.1
  have hA0 : lookup (child_table T (stdin_redirection pipes a)) 0 = wired_stdin t a := by
    rcases Option.eq_none_or_eq_some a with ha2 | ⟨k, ha2⟩
    · rw [hAn ha2, ha2]; exact hT0
    · rw [hAs k ha2, if_pos rfl, ha2]; rfl
  have hA1 : lookup (child_table T (stdin_redirection pipes a)) 1 = lookup t 1 := by
    rcases Option.eq_none_or_eq_some a with ha2 | ⟨k, ha2⟩
    · rw [hAn ha2]; exact hT1
    · rw [hAs k ha2, if_neg (by decide), if_neg (Ne.symm (hfd k (ha k ha2)).2.2.2)]
      exact hT1
  refine ⟨?_, ?_, ?_, ?_⟩
  · rw [hfinal, if_neg hnot0]
    rcases Option.eq_none_or_eq_some b with hb2 | ⟨k2, hb2⟩
    · rw [hBn hb2]; exact hA0
    · rw [hBs k2 hb2 _ _ (hU k2 hb2), if_neg (by decide),
        if_neg (Ne.symm (hfd k2 (hb k2 hb2)).1)]
      exact hA0
  · rw [hfinal, if_neg hnot1]
    rcases Option.eq_none_or_eq_some b with hb2 | ⟨k2, hb2⟩
    · rw [hBn hb2, hb2]; exact hA1
    · rw [hBs k2 hb2 _ _ (hU k2 hb2), if_pos rfl, hb2]; rfl
  · intro j hj
    have m1 : pipe_rd pipes j ∈ close_all pipes num_commands :=
      (mem_close_all _ _ _).mpr ⟨j, hj, Or.inl rfl⟩
    have m2 : pipe_wr pipes j ∈ close_all pipes num_commands :=
      (mem_close_all _ _ _).mpr ⟨j, hj, Or.inr rfl⟩
    rw [hfinal, hfinal, if_pos m1, if_pos m2]
    exact ⟨rfl, rfl⟩
  · intro x hx0 hx1 hx
    have hm : x ∉ close_all pipes num_commands := by
      rw [mem_close_all]
      rintro ⟨j, hj, e | e⟩
      · exact (hx j hj).1 e
      · exact (hx j hj).2 e
    have hAx : lookup (child_table T (stdin_redirection pipes a)) x = lookup t x := by
      rcases Option.eq_none_or_eq_some a with ha2 | ⟨k, ha2⟩
      · rw [hAn ha2]; exact hrest x hx
      · rw [hAs k ha2, if_neg hx0, if_neg (hx k (ha k ha2)).2]
        exact hrest x hx
    rw [hfinal, if_neg hm]
    rcases Option.eq_none_or_eq_some b with hb2 | ⟨k2, hb2⟩
    · rw [hBn hb2]; exact hAx
    · rw [hBs k2 hb2 _ _ (hU k2 hb2), if_neg hx1, if_neg (hx k2 (hb k2 hb2)).1]
      exact hAx

/-! ## The children of the pipeline builders -/

theorem create_pipes_created (env : Env) (n : Nat) : ∀ (i : Nat) (t : FdTable),
    (∀ j, j < i + n → env.pipe_ok j = true) →
    pipes_created (create_pipes env n i t).trace = (create_pipes env n i t).pipes := by
  induction n with
  | zero => intro i t _; rfl
  | succ n ih =>
    intro i t hok
    rw [create_pipes]
    simp only [hok i (by omega), if_true]
    have := ih (i + 1) (sys_pipe t i).2 (fun j hj => hok j (by omega))
    simp only [pipes_created, List.filterMap_cons] at this ⊢
    rw [this]

theorem pipes_created_append (a b : List Action) :
    pipes_created (a ++ b) = pipes_created a ++ pipes_created b := by
  simp [pipes_created, List.filterMap_append]

theorem pipes_created_of_no_pipe (l : List Action)
    (h : ∀ a ∈ l, ∀ i r, a ≠ Action.pipe i r) : pipes_created l = [] := by
  induction l with
  | nil => rfl
  | cons a rest ih =>
    have hrest := ih (fun x hx => h x (List.mem_cons_of_mem _ hx))
    have ha := h a (List.mem_cons_self _ _)
    cases a with
    | pipe i r => exact absurd rfl (ha i r)
    | _ => simpa [pipes_created] using hrest

theorem mem_pipes_iff (pipes : List (Nat × Nat)) (p : Nat × Nat) (h : p ∈ pipes) :
    ∃ j, j < pipes.length ∧ p.1 = pipe_rd pipes j ∧ p.2 = pipe_wr pipes j := by
  obtain ⟨j, hj, e⟩ := List.getElem_of_mem h
  refine ⟨j, hj, ?_, ?_⟩
  · unfold pipe_rd
    rw [List.getD_eq_getElem _ _ hj, e]
  · unfold pipe_wr
    rw [List.getD_eq_getElem _ _ hj, e]

theorem handle_pipes_created (env : Env) (t : FdTable) (commands : List Command)
    (hok : ∀ i, i < commands.length - 1 → env.pipe_ok i = true) :
    pipes_created (handle_pipes env t commands).trace =
      (create_pipes env (commands.length - 1) 0 t).pipes := by
  have hspec := create_pipes_spec env (commands.length - 1) 0 t (fun j hj => hok j (by omega))
  have hcre := create_pipes_created env (commands.length - 1) 0 t (fun j hj => hok j (by omega))
  unfold handle_pipes
  simp only [hspec.1, if_true]
  rw [pipes_created_append, pipes_created_append, pipes_created_append, hcre,
    pipes_created_of_no_pipe (loop_from _ _ _), pipes_created_of_no_pipe (List.map _ _),
    pipes_created_of_no_pipe (loop_from _ _ _)]
  · simp
  · intro a ha i r e
    rw [mem_loop_from] at ha
    obtain ⟨j, _, hj⟩ := ha
    rw [e] at hj
    simp at hj
  · intro a ha i r e
    rw [e] at ha
    simp at ha
  · intro a ha i r e
    rw [mem_loop_from] at ha
    obtain ⟨j, _, hj⟩ := ha
    rw [e] at hj
    simp at hj

theorem handle_reverse_pipes_created (env : Env) (t : FdTable) (commands : List Command)
    (hok : ∀ i, i < commands.length - 1 → env.pipe_ok i = true) :
    pipes_created (handle_reverse_pipes env t commands).trace =
      (create_pipes env (commands.length - 1) 0 t).pipes := by
  have hspec := create_pipes_spec env (commands.length - 1) 0 t (fun j hj => hok j (by omega))
  have hcre := create_pipes_created env (commands.length - 1) 0 t (fun j hj => hok j (by omega))
  unfold handle_reverse_pipes
  simp only [hspec.1, if_true]
  rw [pipes_created_append, pipes_created_append, pipes_created_append, hcre,
    pipes_created_of_no_pipe (loop_down _ _), pipes_created_of_no_pipe (List.map _ _),
    pipes_created_of_no_pipe (loop_from _ _ _)]
  · simp
  · intro a ha i r e
    rw [mem_loop_from] at ha
    obtain ⟨j, _, hj⟩ := ha
    rw [e] at hj
    simp at hj
  · intro a ha i r e
    rw [e] at ha
    simp at ha
  · intro a ha i r e
    rw [loop_down_singleton] at ha
    rw [e] at ha
    simp at ha

/-- Every child of `handle_pipes` has closed both descriptors of every pipe
when it execs. -/
theorem handle_pipes_children_closed (env : Env) (t : FdTable) (commands : List Command)
    (hok : ∀ i, i < commands.length - 1 → env.pipe_ok i = true)
    (h0 : lookup t 0 ≠ none) (h1 : lookup t 1 ≠ none) :
    ∀ c ∈ (handle_pipes env t commands).children,
      ∀ p ∈ pipes_created (handle_pipes env t commands).trace,
        lookup c.table p.1 = none ∧ lookup c.table p.2 = none := by
  have hspec := create_pipes_spec env (commands.length - 1) 0 t (fun j hj => hok j (by omega))
  have hlay := create_pipes_layout env (commands.length - 1) hok t
  intro c hc p hp
  rw [handle_pipes_created env t commands hok] at hp
  obtain ⟨j, hj, e1, e2⟩ := mem_pipes_iff _ p hp
  rw [hspec.2.1] at hj
  have hch : (handle_pipes env t commands).children =
      (List.range commands.length).map (fun i =>
        spawn (create_pipes env (commands.length - 1) 0 t).table commands i
          (pipe_child env (create_pipes env (commands.length - 1) 0 t).pipes commands.length i
            (commands.getD i Command.zero))) := by
    unfold handle_pipes
    simp only [hspec.1, if_true]
    rw [loop_from_singleton]
    simp
  rw [hch] at hc
  obtain ⟨i, hi, rfl⟩ := List.mem_map.mp hc
  have hi2 : i < commands.length := List.mem_range.mp hi
  have htab := wired_child_table env t _ _ commands.length
    (if i > 0 then some (i - 1) else none)
    (if i < commands.length - 1 then some i else none)
    (commands.getD i Command.zero) hlay h0 h1
    (fun k hk => by split at hk <;> simp at hk; omega)
    (fun k hk => by split at hk <;> simp at hk; omega)
    (fun k hk hk2 => by
      split at hk <;> simp at hk
      split at hk2 <;> simp at hk2
      omega)
  simp only [spawn, pipe_child_eq_wired, e1, e2]
  exact htab.2.2.1 j hj

theorem stdio_inherited_open (t : FdTable) (h : stdio_inherited t) :
    lookup t 0 ≠ none ∧ lookup t 1 ≠ none := by
  obtain ⟨⟨a, ha⟩, ⟨b, hb⟩⟩ := h
  rw [ha, hb]
  exact ⟨by simp, by simp⟩

/-- The children of `handle_pipes`, one for each index in increasing order,
with what each has on standard input and standard output. -/
theorem handle_pipes_children (env : Env) (t : FdTable) (commands : List Command)
    (hok : ∀ i, i < commands.length - 1 → env.pipe_ok i = true)
    (h0 : lookup t 0 ≠ none) (h1 : lookup t 1 ≠ none) :
    ∃ g : Nat → ChildProc,
      (handle_pipes env t commands).children = (List.range commands.length).map g ∧
      ∀ i, i < commands.length →
        (g i).index = i ∧ (g i).cmd = commands.getD i Command.zero ∧
        (g i).stdin = (if i > 0 then some (File.pipe_read (i - 1)) else lookup t 0) ∧
        (g i).stdout =
          (if i < commands.length - 1 then some (File.pipe_write i) else lookup t 1) := by
  have hspec := create_pipes_spec env (commands.length - 1) 0 t (fun j hj => hok j (by omega))
  have hlay := create_pipes_layout env (commands.length - 1) hok t
  refine ⟨fun i => spawn (create_pipes env (commands.length - 1) 0 t).table commands i
    (pipe_child env (create_pipes env (commands.length - 1) 0 t).pipes commands.length i
      (commands.getD i Command.zero)), ?_, ?_⟩
  · unfold handle_pipes
    simp only [hspec.1, if_true]
    rw [loop_from_singleton]
    simp
  · intro i hi
    have htab := wired_child_table env t _ _ commands.length
      (if i > 0 then some (i - 1) else none)
      (if i < commands.length - 1 then some i else none)
      (commands.getD i Command.zero) hlay h0 h1
      (fun k hk => by split at hk <;> simp at hk; omega)
      (fun k hk => by split at hk <;> simp at hk; omega)
      (fun k hk hk2 => by
        split at hk <;> simp at hk
        split at hk2 <;> simp at hk2
        omega)
    refine ⟨rfl, rfl, ?_, ?_⟩
    · simp only [ChildProc.stdin, spawn, pipe_child_eq_wired, htab.1]
      split <;> rfl
    · simp only [ChildProc.stdout, spawn, pipe_child_eq_wired, htab.2.1]
      split <;> rfl

/-- C3. Forward pipeline topology.  When the pipes can be created and the
interpreter has its standard input and output open, `handle_pipes` on `N`
commands creates exactly `N - 1` pipes and forks one child per command, in
order; child `i` takes its standard input from the read end of pipe `i - 1`
when `i > 0` (it keeps the inherited one otherwise) and sends its standard
output to the write end of pipe `i` when `i < N - 1` (inherited otherwise);
hence the read end of every pipe is the standard input of exactly one child
and its write end the standard output of exactly one child; and every child
has closed both descriptors of every pipe when it execs. -/
theorem forward_pipeline_topology (env : Env) (t : FdTable) (commands : List Command)
    (hok : ∀ i, i < commands.length - 1 → env.pipe_ok i = true)
    (hstd : stdio_inherited t) :
    (pipes_created (handle_pipes env t commands).trace).length = commands.length - 1 ∧
    wiring (handle_pipes env t commands) =
      (List.range commands.length).map (fun i =>
        (i, commands.getD i Command.zero,
          (if i > 0 then some (File.pipe_read (i - 1)) else lookup t 0),
          (if i < commands.length - 1 then some (File.pipe_write i) else lookup t 1))) ∧
    (∀ k, k < commands.length - 1 →
      (∃! c, c ∈ (handle_pipes env t commands).children ∧
        c.stdin = some (File.pipe_read k)) ∧
      (∃! c, c ∈ (handle_pipes env t commands).children ∧
        c.stdout = some (File.pipe_write k))) ∧
    (∀ c ∈ (handle_pipes env t commands).children,
      ∀ p ∈ pipes_created (handle_pipes env t commands).trace,
        lookup c.table p.1 = none ∧ lookup c.table p.2 = none) := by
  obtain ⟨h0, h1⟩ := stdio_inherited_open t hstd
  obtain ⟨⟨a, hta⟩, ⟨b, htb⟩⟩ := hstd
  have hspec := create_pipes_spec env (commands.length - 1) 0 t (fun j hj => hok j (by omega))
  obtain ⟨g, hch, hg⟩ := handle_pipes_children env t commands hok h0 h1
  refine ⟨?_, ?_, ?_, handle_pipes_children_closed env t commands hok h0 h1⟩
  · rw [handle_pipes_created env t commands hok, hspec.2.1]
  · unfold wiring
    rw [hch, List.map_map]
    apply List.map_congr_left
    intro i hi
    obtain ⟨e1, e2, e3, e4⟩ := hg i (List.mem_range.mp hi)
    simp only [Function.comp, e1, e2, e3, e4]
  · intro k hk
    constructor
    · refine ⟨g (k + 1), ⟨?_, ?_⟩, ?_⟩
      · rw [hch]
        exact List.mem_map.mpr ⟨k + 1, List.mem_range.mpr (by omega), rfl⟩
      · rw [(hg (k + 1) (by omega)).2.2.1]
        simp
      · rintro c ⟨hc, hcs⟩
        rw [hch] at hc
        obtain ⟨i, hi, rfl⟩ := List.mem_map.mp hc
        rw [(hg i (List.mem_range.mp hi)).2.2.1] at hcs
        by_cases hpos : i > 0
        · rw [if_pos hpos] at hcs
          simp only [Option.some.injEq, File.pipe_read.injEq] at hcs
          have : i = k + 1 := by omega
          rw [this]
        · rw [if_neg hpos, hta] at hcs
          simp at hcs
    · refine ⟨g k, ⟨?_, ?_⟩, ?_⟩
      · rw [hch]
        exact List.mem_map.mpr ⟨k, List.mem_range.mpr (by omega), rfl⟩
      · rw [(hg k (by omega)).2.2.2, if_pos hk]
      · rintro c ⟨hc, hcs⟩
        rw [hch] at hc
        obtain ⟨i, hi, rfl⟩ := List.mem_map.mp hc
        rw [(hg i (List.mem_range.mp hi)).2.2.2] at hcs
        by_cases hlast : i < commands.length - 1
        · rw [if_pos hlast] at hcs
          simp only [Option.some.injEq, File.pipe_write.injEq] at hcs
          rw [hcs]
        · rw [if_neg hlast, htb] at hcs
          simp at hcs

theorem sample_table_stdio : stdio_inherited sample_table :=
  ⟨⟨0, rfl⟩, ⟨1, rfl⟩⟩

theorem forward_pipeline_topology_witness :
    (pipes_created (handle_pipes sample_env sample_table sample_chain).trace).length = 2 ∧
    wiring (handle_pipes sample_env sample_table sample_chain) =
      (List.range sample_chain.length).map (fun i =>
        (i, sample_chain.getD i Command.zero,
          (if i > 0 then some (File.pipe_read (i - 1)) else lookup sample_table 0),
          (if i < sample_chain.length - 1 then some (File.pipe_write i)
            else lookup sample_table 1))) :=
  ⟨(forward_pipeline_topology sample_env sample_table sample_chain (fun _ _ => rfl)
      sample_table_stdio).1,
    (forward_pipeline_topology sample_env sample_table sample_chain (fun _ _ => rfl)
      sample_table_stdio).2.1⟩

/-! ## Reverse pipelines -/

/-- After a run of `handle_pipes` in which every pipe was created, each
descriptor of the interpreter refers to what it referred to before. -/
theorem handle_pipes_restores_table (env : Env) (t : FdTable) (commands : List Command)
    (hok : ∀ i, i < commands.length - 1 → env.pipe_ok i = true) (x : Nat) :
    lookup (handle_pipes env t commands).table x = lookup t x := by
  have hspec := create_pipes_spec env (commands.length - 1) 0 t (fun j hj => hok j (by omega))
  obtain ⟨hends, hrest⟩ := create_pipes_layout env (commands.length - 1) hok t
  unfold handle_pipes
  simp only [hspec.1, if_true]
  rw [lookup_close_list]
  by_cases hm : x ∈ close_all (create_pipes env (commands.length - 1) 0 t).pipes commands.length
  · rw [if_pos hm]
    obtain ⟨j, hj, e | e⟩ := (mem_close_all _ _ _).mp hm
    · rw [e]; exact (hends j hj).2.2.1.symm
    · rw [e]; exact (hends j hj).2.2.2.symm
  · rw [if_neg hm]
    apply hrest
    intro j hj
    constructor
    · intro e; exact hm ((mem_close_all _ _ _).mpr ⟨j, hj, Or.inl e⟩)
    · intro e; exact hm ((mem_close_all _ _ _).mpr ⟨j, hj, Or.inr e⟩)

/-- After a run of `handle_reverse_pipes` in which every pipe was created,
each descriptor of the interpreter refers to what it referred to before. -/
theorem handle_reverse_pipes_restores_table (env : Env) (t : FdTable)
    (commands : List Command)
    (hok : ∀ i, i < commands.length - 1 → env.pipe_ok i = true) (x : Nat) :
    lookup (handle_reverse_pipes env t commands).table x = lookup t x := by
  have hspec := create_pipes_spec env (commands.length - 1) 0 t (fun j hj => hok j (by omega))
  obtain ⟨hends, hrest⟩ := create_pipes_layout env (commands.length - 1) hok t
  unfold handle_reverse_pipes
  simp only [hspec.1, if_true]
  rw [lookup_close_list]
  by_cases hm : x ∈ close_all (create_pipes env (commands.length - 1) 0 t).pipes commands.length
  · rw [if_pos hm]
    obtain ⟨j, hj, e | e⟩ := (mem_close_all _ _ _).mp hm
    · rw [e]; exact (hends j hj).2.2.1.symm
    · rw [e]; exact (hends j hj).2.2.2.symm
  · rw [if_neg hm]
    apply hrest
    intro j hj
    constructor
    · intro e; exact hm ((mem_close_all _ _ _).mpr ⟨j, hj, Or.inl e⟩)
    · intro e; exact hm ((mem_close_all _ _ _).mpr ⟨j, hj, Or.inr e⟩)

/-- C10, evaluated on the code.  With three commands, when the first `pipe`
call succeeds and the second fails, `handle_pipes` and
`handle_reverse_pipes` report the failure and return at once: no child is
forked and no `close` is made, so descriptors 3 and 4, closed before the
run, are left open in the interpreter on the two ends of the first pipe. -/
theorem pipe_failure_leaves_descriptors_open :
    (handle_pipes second_pipe_fails sample_table sample_chain).trace =
      [Action.pipe 0 (some (3, 4)), Action.pipe 1 none,
        Action.printf "Error: Pipe creation failed"] ∧
    (handle_pipes second_pipe_fails sample_table sample_chain).children = [] ∧
    lookup sample_table 3 = none ∧ lookup sample_table 4 = none ∧
    lookup (handle_pipes second_pipe_fails sample_table sample_chain).table 3 =
      some (File.pipe_read 0) ∧
    lookup (handle_pipes second_pipe_fails sample_table sample_chain).table 4 =
      some (File.pipe_write 0) ∧
    (handle_reverse_pipes second_pipe_fails sample_table sample_chain).trace =
      [Action.pipe 0 (some (3, 4)), Action.pipe 1 none,
        Action.printf "Error: Pipe creation failed"] ∧
    lookup (handle_reverse_pipes second_pipe_fails sample_table sample_chain).table 3 =
      some (File.pipe_read 0) ∧
    lookup (handle_reverse_pipes second_pipe_fails sample_table sample_chain).table 4 =
      some (File.pipe_write 0) := by
  decide

/-! ## Collection of conditional chains -/

/-- What the collection loop of the conditional branch guarantees on every
line: at most `n` descriptors, at least one when there is room, and either
one operator fewer than descriptors, or, when the room is used up with an
operator still found, as many operators as descriptors. -/
theorem conditional_loop_counts (n : Nat) : ∀ token : CStr,
    (conditional_loop n token).1.length ≤ n ∧
    (0 < n → 1 ≤ (conditional_loop n token).1.length) ∧
    ((conditional_loop n token).2.length + 1 = (conditional_loop n token).1.length ∨
      ((conditional_loop n token).2.length = (conditional_loop n token).1.length ∧
        (conditional_loop n token).1.length = n)) := by
  induction n with
  | zero => intro token; simp [conditional_loop]
  | succ n ih =>
    intro token
    rw [conditional_loop]
    simp only
    split
    · obtain ⟨h1, _, h3⟩ := ih (skip_spaces (token.drop ((strstr ['&', '&'] token).getD 0 + 2)))
      simp only [List.length_cons]
      refine ⟨by omega, fun _ => by omega, ?_⟩
      rcases h3 with h3 | ⟨h3, h4⟩
      · left; omega
      · right; omega
    · split
      · rename_i pos _
        obtain ⟨h1, _, h3⟩ := ih (skip_spaces (token.drop (pos + 2)))
        simp only [List.length_cons]
        refine ⟨by omega, fun _ => by omega, ?_⟩
        rcases h3 with h3 | ⟨h3, h4⟩
        · left; omega
        · right; omega
      · simp

/-- C11, evaluated on the code.  On a line with seven segments the
collection loop stops after six descriptors, but it has then recorded six
operators, one on each of its six iterations: the sixth goes past the five
slots of the operators array, and the operators are not one fewer than the
descriptors. -/
theorem conditional_collection_overflows :
    classify seven_segments =
      Dispatch.conditional
        (["a", "b", "c", "d", "e", "f"].map (fun (s : String) => parse_command s.toList))
        ['&', '|', '&', '|', '&', '&'] ∧
    (conditional_loop (MAX_PIPES + 1) seven_segments).1.length = 6 ∧
    (conditional_loop (MAX_PIPES + 1) seven_segments).2.length = 6 ∧
    ¬ (conditional_loop (MAX_PIPES + 1) seven_segments).2.length ≤ MAX_PIPES ∧
    ¬ (conditional_loop (MAX_PIPES + 1) seven_segments).2.length + 1 =
      (conditional_loop (MAX_PIPES + 1) seven_segments).1.length := by
  decide

/-! ## Short-circuit chains -/

theorem strstr_pair_isSome (a : Char) (s : CStr) :
    (strstr [a, a] s).isSome = true ↔ contains_pair a s := by
  unfold contains_pair
  induction s with
  | nil => simp [strstr]
  | cons x xs ih =>
    rw [strstr]
    by_cases hs : starts_with [a, a] (x :: xs) = true
    · rw [if_pos hs]
      obtain ⟨r, hr⟩ := (starts_with_pair a _).mp hs
      simp only [Option.isSome_some, true_iff]
      exact ⟨[], r, hr⟩
    · rw [if_neg hs]
      constructor
      · intro h
        have h2 : (strstr [a, a] xs).isSome = true := by
          cases hx : strstr [a, a] xs with
          | none => rw [hx] at h; simp at h
          | some v => rfl
        obtain ⟨p, r, hpr⟩ := ih.mp h2
        exact ⟨x :: p, r, by rw [hpr]; rfl⟩
      · rintro ⟨p, r, hpr⟩
        cases p with
        | nil =>
          exfalso
          apply hs
          rw [starts_with_pair]
          exact ⟨r, hpr⟩
        | cons y p2 =>
          simp only [List.cons_append, List.cons.injEq] at hpr
          have h2 := ih.mpr ⟨p2, r, hpr.2⟩
          cases hx : strstr [a, a] xs with
          | none => rw [hx] at h2; simp at h2
          | some v => rfl

theorem not_killterm_of_mem (input : CStr) (c : Char) (hc : c ∈ input)
    (h1 : c ∉ "killterm".toList) (h2 : c ∉ "killallterms".toList) :
    ¬ input = "killterm".toList ∧ ¬ input = "killallterms".toList :=
  ⟨fun e => h1 (e ▸ hc), fun e => h2 (e ▸ hc)⟩

/-- C15, as amended.  A line that contains a literal `||` is never
dispatched to the Pipeline Builder, and it is dispatched to the Conditional
Runner when no earlier branch of the classifier takes it, that is when it
contains none of `=`, `~`, `+`, `;` and does not start with `#`.  A line
that contains `|` and no `||` is dispatched to the Pipeline Builder. -/
theorem double_bar_precedence (input : CStr) :
    (contains_pair '|' input →
      (∀ commands, classify input ≠ Dispatch.pipes commands) ∧
      ('=' ∉ input → '~' ∉ input → input.head? ≠ some '#' → '+' ∉ input → ';' ∉ input →
        ∃ commands operators, classify input = Dispatch.conditional commands operators)) ∧
    ('|' ∈ input → ¬ contains_pair '|' input →
      ∃ commands, classify input = Dispatch.pipes commands) := by
  constructor
  · intro hpair
    have hsome := (strstr_pair_isSome '|' input).mpr hpair
    obtain ⟨p, r, hpr⟩ := hpair
    have hbar : '|' ∈ input := by rw [hpr]; simp
    obtain ⟨hk1, hk2⟩ := not_killterm_of_mem input '|' hbar (by decide) (by decide)
    have hp : ¬ (strchr input '|' = true ∧ (strstr ['|', '|'] input).isNone = true) := by
      rintro ⟨_, hn⟩
      rw [Option.isNone_iff_eq_none] at hn
      rw [hn] at hsome
      exact absurd hsome (by decide)
    constructor
    · intro commands
      unfold classify
      rw [if_neg hk1, if_neg hk2, if_neg hp]
      split
      · simp
      · split
        · split <;> simp
        · split
          · simp
          · split
            · simp
            · split
              · simp only; split <;> simp
              · split
                · simp only; split <;> simp
                · simp
    · intro h1 h2 h3 h4 h5
      have hcount := (conditional_loop_counts (MAX_PIPES + 1)
        (strncpy input (MAX_CMD_LEN - 1))).2.1 (by decide)
      have hcond : (strstr ['&', '&'] input).isSome = true ∨
          (strstr ['|', '|'] input).isSome = true := Or.inr hsome
      refine ⟨(conditional_loop (MAX_PIPES + 1) (strncpy input (MAX_CMD_LEN - 1))).1,
        (conditional_loop (MAX_PIPES + 1) (strncpy input (MAX_CMD_LEN - 1))).2, ?_⟩
      unfold classify
      rw [if_neg hk1, if_neg hk2, if_neg hp,
        if_neg (fun h => h1 ((strchr_iff _ _).mp h)),
        if_neg (fun h => h2 ((strchr_iff _ _).mp h)),
        if_neg h3,
        if_neg (fun h => h4 ((strchr_iff _ _).mp h)),
        if_neg (fun h => h5 ((strchr_iff _ _).mp h)),
        if_pos hcond]
      simp only
      rw [if_pos (by omega)]
  · intro hbar hno
    obtain ⟨hk1, hk2⟩ := not_killterm_of_mem input '|' hbar (by decide) (by decide)
    have hnone : (strstr ['|', '|'] input).isNone = true := by
      cases hx : strstr ['|', '|'] input with
      | none => rfl
      | some v =>
        exfalso
        apply hno
        apply (strstr_pair_isSome '|' input).mp
        rw [hx]
        rfl
    refine ⟨(take_tokens (MAX_PIPES + 1) (strtok_all '|' input) 0).map parse_command, ?_⟩
    unfold classify
    rw [if_neg hk1, if_neg hk2, if_pos ⟨(strchr_iff _ _).mpr hbar, hnone⟩]

theorem double_bar_precedence_witness :
    (∃ commands operators,
      classify "false || echo B".toList = Dispatch.conditional commands operators) ∧
    (∃ commands, classify "ls | wc".toList = Dispatch.pipes commands) :=
  ⟨((double_bar_precedence "false || echo B".toList).1
      ⟨"false ".toList, " echo B".toList, by decide⟩).2
      (by decide) (by decide) (by decide) (by decide) (by decide),
    (double_bar_precedence "ls | wc".toList).2 (by decide)
      (fun h => absurd ((strstr_pair_isSome '|' "ls | wc".toList).mpr h) (by decide))⟩

/-- C15, as stated, fails on the code.  The lines `a || b = c` and
`a || b ; c` contain a literal `||`, but the classifier tests for `=` and
for `;` before it tests for `&&` and `||`: the first line is dispatched to
the Reverse Pipeline Builder and the second to the Sequential Runner, not
to the Conditional Runner. -/
theorem double_bar_line_not_conditional :
    contains_pair '|' "a || b = c".toList ∧
    classify "a || b = c".toList =
      Dispatch.reverse_pipes [parse_command "a || b ".toList, parse_command " c".toList] ∧
    ¬ (∃ commands operators,
      classify "a || b = c".toList = Dispatch.conditional commands operators) ∧
    contains_pair '|' "a || b ; c".toList ∧
    classify "a || b ; c".toList = Dispatch.sequential ["a || b".toList, "c".toList] := by
  refine ⟨⟨"a ".toList, " b = c".toList, by decide⟩, by decide, ?_,
    ⟨"a ".toList, " b ; c".toList, by decide⟩, by decide⟩
  rintro ⟨commands, operators, h⟩
  have e : classify "a || b = c".toList =
      Dispatch.reverse_pipes [parse_command "a || b ".toList, parse_command " c".toList] := by
    decide
  rw [e] at h
  cases h

/-! ## Redirection fields in chains -/

theorem same_arguments_length (commands1 commands2 : List Command)
    (h : same_arguments commands1 commands2) : commands1.length = commands2.length := by
  have := congrArg List.length h
  simpa using this

theorem same_arguments_getD (commands1 commands2 : List Command)
    (h : same_arguments commands1 commands2) (i : Nat) :
    (commands1.getD i Command.zero).args = (commands2.getD i Command.zero).args := by
  have h1 := @List.getD_map _ _ commands1 Command.zero i (fun c => (c.args, c.argc))
  have h2 := @List.getD_map _ _ commands2 Command.zero i (fun c => (c.args, c.argc))
  unfold same_arguments at h
  rw [h, h2] at h1
  exact (congrArg Prod.fst h1).symm

theorem child_exec_congr (env : Env) (c1 c2 : Command) (msg : String) (h : c1.args = c2.args) :
    child_exec env c1 msg = child_exec env c2 msg := by
  unfold child_exec
  rw [h]

theorem child_exec_opens_nothing (env : Env) (cmd : Command) (msg : String) :
    ∀ a ∈ child_exec env cmd msg, a.is_open = false := by
  intro a ha
  unfold child_exec at ha
  split at ha
  · simp only [List.mem_singleton] at ha
    rw [ha]; rfl
  · simp only [List.mem_cons, List.mem_singleton, List.not_mem_nil, or_false] at ha
    rcases ha with rfl | rfl | rfl <;> rfl

theorem wired_child_opens_nothing (env : Env) (pipes : List (Nat × Nat)) (n : Nat)
    (a b : Option Nat) (cmd : Command) :
    ∀ x ∈ wired_child env pipes n a b cmd, x.is_open = false := by
  intro x hx
  unfold wired_child at hx
  simp only [List.mem_append, List.mem_map] at hx
  rcases hx with ((hx | hx) | ⟨fd, _, rfl⟩) | hx
  · cases a with
    | none => simp [stdin_redirection] at hx
    | some k =>
      simp only [stdin_redirection, List.mem_cons, List.mem_singleton, List.not_mem_nil,
        or_false] at hx
      rcases hx with rfl | rfl <;> rfl
  · cases b with
    | none => simp [stdout_redirection] at hx
    | some k =>
      simp only [stdout_redirection, List.mem_cons, List.mem_singleton, List.not_mem_nil,
        or_false] at hx
      rcases hx with rfl | rfl <;> rfl
  · rfl
  · exact child_exec_opens_nothing env cmd _ x hx

theorem pipe_child_congr (env : Env) (pipes : List (Nat × Nat)) (n i : Nat) (c1 c2 : Command)
    (h : c1.args = c2.args) : pipe_child env pipes n i c1 = pipe_child env pipes n i c2 := by
  unfold pipe_child
  rw [child_exec_congr env c1 c2 _ h]

theorem reverse_pipe_child_congr (env : Env) (pipes : List (Nat × Nat)) (n i : Nat)
    (c1 c2 : Command) (h : c1.args = c2.args) :
    reverse_pipe_child env pipes n i c1 = reverse_pipe_child env pipes n i c2 := by
  unfold reverse_pipe_child
  rw [child_exec_congr env c1 c2 _ h]

theorem handle_pipes_congr (env : Env) (t : FdTable) (commands1 commands2 : List Command)
    (h : same_arguments commands1 commands2) :
    (handle_pipes env t commands1).actions = (handle_pipes env t commands2).actions := by
  have hlen := same_arguments_length _ _ h
  unfold Run.actions handle_pipes
  simp only [hlen]
  split
  · simp only [Prod.mk.injEq, true_and]
    rw [loop_from_singleton, loop_from_singleton, List.map_map, List.map_map]
    apply List.map_congr_left
    intro i _
    simp only [Function.comp, spawn,
      pipe_child_congr env _ _ _ _ _ (same_arguments_getD _ _ h _)]
  · rfl

theorem handle_reverse_pipes_congr (env : Env) (t : FdTable)
    (commands1 commands2 : List Command) (h : same_arguments commands1 commands2) :
    (handle_reverse_pipes env t commands1).actions =
      (handle_reverse_pipes env t commands2).actions := by
  have hlen := same_arguments_length _ _ h
  unfold Run.actions handle_reverse_pipes
  simp only [hlen]
  split
  · simp only [Prod.mk.injEq, true_and]
    rw [loop_down_singleton, loop_down_singleton, List.map_map, List.map_map]
    apply List.map_congr_left
    intro i _
    simp only [Function.comp, spawn,
      reverse_pipe_child_congr env _ _ _ _ _ (same_arguments_getD _ _ h _)]
  · rfl

theorem cond_runs_congr (operators : List Char) (s1 s2 : CondState) (hi : s1.i = s2.i)
    (hs : s1.last_status = s2.last_status) : cond_runs operators s1 = cond_runs operators s2 := by
  unfold cond_runs
  rw [hi, hs]

theorem cond_state_congr (env : Env) (t : FdTable) (commands1 commands2 : List Command)
    (operators : List Char) (h : same_arguments commands1 commands2) (k : Nat) :
    (cond_state env t commands1 operators k).i = (cond_state env t commands2 operators k).i ∧
    (cond_state env t commands1 operators k).last_status =
      (cond_state env t commands2 operators k).last_status ∧
    (cond_state env t commands1 operators k).trace =
      (cond_state env t commands2 operators k).trace ∧
    (cond_state env t commands1 operators k).children.map
        (fun c => (c.index, c.script, c.table)) =
      (cond_state env t commands2 operators k).children.map
        (fun c => (c.index, c.script, c.table)) := by
  induction k with
  | zero => exact ⟨rfl, rfl, rfl, rfl⟩
  | succ k ih =>
    obtain ⟨h1, h2, h3, h4⟩ := ih
    have hr := cond_runs_congr operators _ _ h1 h2
    rw [cond_state_succ, cond_state_succ]
    unfold cond_step
    rw [hr]
    split
    · have hc : conditional_child env
          (commands1.getD (cond_state env t commands2 operators k).i Command.zero) =
          conditional_child env
            (commands2.getD (cond_state env t commands2 operators k).i Command.zero) := by
        unfold conditional_child
        rw [child_exec_congr env _ _ _ (same_arguments_getD _ _ h _)]
      simp only [h1, h3, h4, List.map_append, List.map_cons, List.map_nil, spawn, hc, and_self]
    · exact ⟨by simp only [h1], h2, by simp only [h1, h3], h4⟩

theorem execute_conditional_congr (env : Env) (t : FdTable)
    (commands1 commands2 : List Command) (operators : List Char)
    (h : same_arguments commands1 commands2) :
    (execute_conditional env t commands1 operators).actions =
      (execute_conditional env t commands2 operators).actions := by
  have hlen := same_arguments_length _ _ h
  obtain ⟨_, _, h3, h4⟩ := cond_state_congr env t commands1 commands2 operators h commands2.length
  unfold Run.actions execute_conditional
  simp only [hlen, h3, h4]

theorem handle_pipes_opens_nothing (env : Env) (t : FdTable) (commands : List Command) :
    opens_nothing (handle_pipes env t commands) := by
  intro c hc
  unfold handle_pipes at hc
  simp only at hc
  split at hc
  · simp only [loop_from_singleton, List.mem_map] at hc
    obtain ⟨i, _, rfl⟩ := hc
    simp only [spawn, pipe_child_eq_wired]
    exact wired_child_opens_nothing env _ _ _ _ _
  · simp at hc

theorem handle_reverse_pipes_opens_nothing (env : Env) (t : FdTable)
    (commands : List Command) : opens_nothing (handle_reverse_pipes env t commands) := by
  intro c hc
  unfold handle_reverse_pipes at hc
  simp only at hc
  split at hc
  · simp only [loop_down_singleton, List.mem_map] at hc
    obtain ⟨i, _, rfl⟩ := hc
    simp only [spawn, reverse_pipe_child_eq_wired]
    exact wired_child_opens_nothing env _ _ _ _ _
  · simp at hc

theorem cond_state_opens_nothing (env : Env) (t : FdTable) (commands : List Command)
    (operators : List Char) (k : Nat) :
    ∀ c ∈ (cond_state env t commands operators k).children,
      ∀ a ∈ c.script, a.is_open = false := by
  induction k with
  | zero => intro c hc; simp [cond_state, cond_iterate] at hc
  | succ k ih =>
    rw [cond_state_succ]
    unfold cond_step
    split
    · intro c hc
      simp only [List.mem_append, List.mem_singleton] at hc
      rcases hc with hc | hc
      · exact ih c hc
      · intro a ha
        rw [hc] at ha
        simp only [spawn, conditional_child, List.mem_cons] at ha
        rcases ha with rfl | ha
        · rfl
        · exact child_exec_opens_nothing env _ _ a ha
    · exact ih

/-- C18. Redirection fields do not influence chains.  Two chains with the
same argument vectors, whatever their `input_file`, `output_file` and
`append_output`, give in the same environment the same run of the Pipeline
Builder, of the Reverse Pipeline Builder and of the Conditional Runner: the
same calls of the interpreter (`pipe`, `fork`, `close`, waits), and for each
child the same calls (`dup2`, `close`, `execvp`) and the same descriptor
table at exec.  No child of such a run opens a file. -/
theorem redirection_fields_ignored (env : Env) (t : FdTable)
    (commands1 commands2 : List Command) (operators : List Char)
    (h : same_arguments commands1 commands2) :
    (handle_pipes env t commands1).actions = (handle_pipes env t commands2).actions ∧
    (handle_reverse_pipes env t commands1).actions =
      (handle_reverse_pipes env t commands2).actions ∧
    (execute_conditional env t commands1 operators).actions =
      (execute_conditional env t commands2 operators).actions ∧
    opens_nothing (handle_pipes env t commands1) ∧
    opens_nothing (handle_reverse_pipes env t commands1) ∧
    opens_nothing (execute_conditional env t commands1 operators) :=
  ⟨handle_pipes_congr env t _ _ h, handle_reverse_pipes_congr env t _ _ h,
    execute_conditional_congr env t _ _ operators h,
    handle_pipes_opens_nothing env t _, handle_reverse_pipes_opens_nothing env t _,
    cond_state_opens_nothing env t _ operators _⟩

theorem redirection_fields_ignored_witness :
    same_arguments sample_chain_redirected sample_chain ∧
    sample_chain_redirected ≠ sample_chain ∧
    (handle_pipes sample_env sample_table sample_chain_redirected).actions =
      (handle_pipes sample_env sample_table sample_chain).actions :=
  ⟨by unfold same_arguments; decide, by decide,
    (redirection_fields_ignored sample_env sample_table sample_chain_redirected sample_chain
      ['&', '|'] (by unfold same_arguments; decide)).1⟩

/-! ## The child of the single-command executor -/

/-- C14. Outcome of the child of the single-command executor.  For every
valid descriptor `execute_single_command` forks exactly one child.  That
child either becomes the image of `args[0]` with arguments `args`, or
terminates with status 1; it never goes on in the code of its caller.  It
terminates with status 1 exactly when the input redirect is set and cannot
be opened, or the output redirect is set and cannot be opened, or `execvp`
fails.  The files it opens are, in this order, the input redirect
read-only, then (only when the input open did not fail) the output redirect
write-only with create, with append when `append_output` is set and
truncate otherwise. -/
theorem single_command_child_outcome (env : Env) (t : FdTable) (i : Nat) (cmd : Command)
    (hv : cmd.valid) :
    ∃ c, (execute_single_command env t i cmd).children = [c] ∧ c.cmd = cmd ∧
      child_end c.script =
        (if input_fails env cmd = true ∨ output_fails env cmd = true ∨
            env.exec_ok cmd.args.head? = false
          then ChildEnd.exited 1 else ChildEnd.image cmd.args.head? cmd.args) ∧
      child_end c.script ≠ ChildEnd.returned ∧
      opens c.script =
        input_open env cmd ++ (if input_fails env cmd = true then [] else output_open env cmd) := by
  have hargc : ¬ cmd.argc = 0 := hv
  refine ⟨{ index := i, cmd := cmd, script := single_child env t cmd,
            table := child_table t (single_child env t cmd) }, ?_, rfl, ?_⟩
  · unfold execute_single_command
    rw [if_neg hargc]
  · simp only
    have key : child_end (single_child env t cmd) =
          (if input_fails env cmd = true ∨ output_fails env cmd = true ∨
              env.exec_ok cmd.args.head? = false
            then ChildEnd.exited 1 else ChildEnd.image cmd.args.head? cmd.args) ∧
        opens (single_child env t cmd) =
          input_open env cmd ++
            (if input_fails env cmd = true then [] else output_open env cmd) := by
      unfold single_child single_child_input single_child_output child_exec input_fails
        output_fails input_open output_open output_mode
      cases hin : cmd.input_file with
      | none =>
        cases hout : cmd.output_file with
        | none =>
          cases hx : env.exec_ok cmd.args.head? <;> simp [hx, child_end, opens]
        | some q =>
          by_cases happ : cmd.append_output = 0 <;>
          cases hq1 : env.open_ok q OpenMode.wronly_creat_trunc <;>
          cases hq2 : env.open_ok q OpenMode.wronly_creat_append <;>
          cases hx : env.exec_ok cmd.args.head? <;>
          simp [hx, hq1, hq2, happ, child_end, opens]
      | some p =>
        cases hp : env.open_ok p OpenMode.rdonly with
        | false => simp [hp, child_end, opens]
        | true =>
          cases hout : cmd.output_file with
          | none =>
            cases hx : env.exec_ok cmd.args.head? <;> simp [hp, hx, child_end, opens]
          | some q =>
            by_cases happ : cmd.append_output = 0 <;>
            cases hq1 : env.open_ok q OpenMode.wronly_creat_trunc <;>
            cases hq2 : env.open_ok q OpenMode.wronly_creat_append <;>
            cases hx : env.exec_ok cmd.args.head? <;>
            simp [hp, hx, hq1, hq2, happ, child_end, opens]
    refine ⟨key.1, ?_, key.2⟩
    rw [key.1]
    split <;> simp

/-- Instance of `single_command_child_outcome`: for the descriptor of `sort`
with input `in.txt` and output `out.txt`, with `in.txt` missing, the one
child exits with status 1 and `out.txt` is never opened. -/
theorem single_command_child_outcome_witness :
    sort_redirected.valid ∧
    ∃ c, (execute_single_command input_missing sample_table 0 sort_redirected).children = [c] ∧
      child_end c.script = ChildEnd.exited 1 ∧
      opens c.script = [("in.txt".toList, OpenMode.rdonly, false)] := by
  refine ⟨by decide, ?_⟩
  obtain ⟨c, hc, _, hend, _, hopens⟩ :=
    single_command_child_outcome input_missing sample_table 0 sort_redirected (by decide)
  refine ⟨c, hc, ?_, ?_⟩
  · rw [hend]; decide
  · rw [hopens]; decide

/-! ## Terminating all instances -/

/-- The read loop of `kill_all_shells` signals the other instances, in
listing order, and sets its flag when the caller is listed under the name. -/
theorem kill_loop_spec (self_name : CStr) (pid : Int) (lines : List PsLine) (b : Bool) :
    kills (kill_loop self_name pid lines b).1 = other_instances lines self_name pid ∧
    (kill_loop self_name pid lines b).2 = (b || decide (some (pid, self_name) ∈ lines)) := by
  induction lines generalizing b with
  | nil => simp [kill_loop, kills, other_instances]
  | cons line rest ih =>
    rcases line with _ | ⟨proc_id, command⟩
    · have h := ih b
      simp only [kill_loop]
      refine ⟨by simpa [other_instances] using h.1, ?_⟩
      rw [h.2]
      simp
    · simp only [kill_loop]
      by_cases hname : command = self_name
      · rw [if_pos hname]
        by_cases hpid : proc_id = pid
        · have h := ih true
          rw [if_neg (not_not.mpr hpid)]
          refine ⟨?_, ?_⟩
          · rw [h.1]
            simp [other_instances, hname, hpid]
          · rw [h.2]
            simp [hname, hpid]
        · have h := ih b
          rw [if_pos hpid]
          refine ⟨?_, ?_⟩
          · have h1 := h.1
            simp only [kills, other_instances] at h1 ⊢
            simp [hname, hpid, h1]
          · simp only
            rw [h.2]
            have hne : ¬ (pid = proc_id) := fun e => hpid e.symm
            simp [hne]
      · have h := ih b
        rw [if_neg hname]
        refine ⟨?_, ?_⟩
        · rw [h.1]
          simp [other_instances, hname]
        · rw [h.2]
          have hne : ¬ (self_name = command) := fun e => hname e.symm
          simp [hne]

/-- C12. Order of the signals of `kill_all_shells`.  For every listing read
from `ps` (each line as `sscanf` reads it), every name and every caller pid,
the `kill` calls of `kill_all_shells` are, in order: one for each listed
process whose command name equals `self_name` and whose pid differs from the
caller's, in listing order, and then one for the caller itself exactly when
the caller is listed under `self_name`.  No other process is signalled, and
the function returns to its caller exactly when the caller was not
signalled. -/
theorem kill_all_shells_order (lines : List PsLine) (self_name : CStr) (pid : Int) :
    kills (kill_all_shells (some lines) self_name pid).trace =
      other_instances lines self_name pid ++
        (if some (pid, self_name) ∈ lines then [pid] else []) ∧
    (∀ p ∈ other_instances lines self_name pid, p ≠ pid ∧ some (p, self_name) ∈ lines) ∧
    ((kill_all_shells (some lines) self_name pid).returns = true ↔
      some (pid, self_name) ∉ lines) := by
  have h := kill_loop_spec self_name pid lines false
  refine ⟨?_, ?_, ?_⟩
  · unfold kill_all_shells
    simp only
    by_cases hs : some (pid, self_name) ∈ lines
    · have h2 : (kill_loop self_name pid lines false).2 = true := by rw [h.2]; simp [hs]
      rw [if_pos h2, if_pos hs, ← h.1]
      simp [kills, List.filterMap_append]
    · have h2 : ¬ (kill_loop self_name pid lines false).2 = true := by rw [h.2]; simp [hs]
      rw [if_neg h2, if_neg hs, ← h.1]
      simp [kills, List.filterMap_append]
  · intro p hp
    unfold other_instances at hp
    simp only [List.mem_map, List.mem_filter, List.mem_filterMap, id] at hp
    obtain ⟨⟨q, name⟩, ⟨⟨line, hline, hsome⟩, hcond⟩, rfl⟩ := hp
    have hc := of_decide_eq_true hcond
    simp only at hc
    refine ⟨hc.2, ?_⟩
    rw [← hc.1, ← hsome]
    exact hline
  · unfold kill_all_shells
    simp only
    by_cases hs : some (pid, self_name) ∈ lines
    · have h2 : (kill_loop self_name pid lines false).2 = true := by rw [h.2]; simp [hs]
      rw [if_pos h2]
      simp [hs]
    · have h2 : ¬ (kill_loop self_name pid lines false).2 = true := by rw [h.2]; simp [hs]
      rw [if_neg h2]
      simp [hs]

/-- The signals of `kill_all_shells` on the sample listing, called in
process 100: the other two instances in listing order, then the caller. -/
theorem kill_all_shells_sample :
    kills (kill_all_shells (some sample_listing) "w25shell".toList 100).trace = [90, 120, 100] := by
  decide

/-- C13, as the claim states it: when `popen` fails on `killallterms`, the
read loop does not go on to the next line; the interpreter exits with
status 0. -/
theorem enumeration_failure_ends_interpreter :
    (main_iteration sample_env none "w25shell".toList 100 sample_table
        "killallterms".toList).next = Next.exit 0 ∧
    (main_iteration sample_env none "w25shell".toList 100 sample_table
        "killallterms".toList).next ≠ Next.read_next_line := by
  decide

/-- C13, amended.  When the user enters `killallterms` and the process
listing cannot be obtained (`popen` fails), the failure is reported with
`perror`, no signal is sent to any process, no process is created, and the
interpreter then terminates with exit status 0. -/
theorem enumeration_failure_reported_then_exit (env : Env) (self_name : CStr) (pid : Int)
    (t : FdTable) :
    (main_iteration env none self_name pid t "killallterms".toList).kill_trace =
      [KillAction.popen false, KillAction.perror "Failed to run ps command"] ∧
    kills (main_iteration env none self_name pid t "killallterms".toList).kill_trace = [] ∧
    (main_iteration env none self_name pid t "killallterms".toList).run.trace = [] ∧
    (main_iteration env none self_name pid t "killallterms".toList).next = Next.exit 0 := by
  have h1 : ¬ ("killallterms".toList = "killterm".toList) := by decide
  unfold main_iteration
  rw [if_neg h1, if_pos rfl]
  simp [kill_all_shells, kills]

/-! ## Writes into the argument array -/

/-- The loop of `parse_command` writes at the indices from the counter it
starts with up to the counter it ends with. -/
theorem parse_loop_writes_spec (n : Nat) : ∀ (tokens : List CStr) (cmd : Command),
    tokens.length ≤ n →
    parse_loop_writes tokens cmd.argc =
      List.range' cmd.argc ((parse_loop tokens cmd).argc - cmd.argc) ∧
    cmd.argc ≤ (parse_loop tokens cmd).argc ∧
    (cmd.argc ≤ MAX_ARGS → (parse_loop tokens cmd).argc ≤ MAX_ARGS) := by
  induction n with
  | zero =>
    intro tokens cmd hl
    have : tokens = [] := List.length_eq_zero.mp (by omega)
    subst this
    simp [parse_loop, parse_loop_writes]
  | succ n ih =>
    intro tokens cmd hl
    cases tokens with
    | nil => simp [parse_loop, parse_loop_writes]
    | cons token rest =>
      have hrest : rest.length ≤ n := by simpa using hl
      by_cases hroom : cmd.argc < MAX_ARGS
      · by_cases h1 : token = ['<']
        · cases rest with
          | nil => simp [parse_loop, parse_loop_writes, hroom, h1]
          | cons f rest2 =>
            have h2 : rest2.length ≤ n := by simp at hrest; omega
            have := ih rest2 { cmd with input_file := some f } h2
            simpa [parse_loop, parse_loop_writes, hroom, h1] using this
        · by_cases h2 : token = ['>']
          · cases rest with
            | nil => simp [parse_loop, parse_loop_writes, hroom, h2]
            | cons f rest2 =>
              have h3 : rest2.length ≤ n := by simp at hrest; omega
              have := ih rest2 { cmd with output_file := some f, append_output := 0 } h3
              simpa [parse_loop, parse_loop_writes, hroom, h2] using this
          · by_cases h3 : token = ['>', '>']
            · cases rest with
              | nil => simp [parse_loop, parse_loop_writes, hroom, h3]
              | cons f rest2 =>
                have h4 : rest2.length ≤ n := by simp at hrest; omega
                have := ih rest2 { cmd with output_file := some f, append_output := 1 } h4
                simpa [parse_loop, parse_loop_writes, hroom, h3] using this
            · have h := ih rest { cmd with args := cmd.args ++ [token], argc := cmd.argc + 1 }
                hrest
              have hr : is_redirection token = false := by simp [is_redirection, h1, h2, h3]
              have hw : parse_loop_writes (token :: rest) cmd.argc =
                  cmd.argc :: parse_loop_writes rest (cmd.argc + 1) := by
                rw [parse_loop_writes.eq_def]
                simp only [hroom, h1, h2, h3, if_true, if_false]
              rw [parse_loop_cons_arg token rest cmd hroom hr, hw]
              simp only at h
              obtain ⟨ha, hb, hc⟩ := h
              refine ⟨?_, by omega, fun _ => hc (by omega)⟩
              rw [ha]
              have e : (parse_loop rest
                  { cmd with args := cmd.args ++ [token], argc := cmd.argc + 1 }).argc - cmd.argc =
                  ((parse_loop rest
                  { cmd with args := cmd.args ++ [token], argc := cmd.argc + 1 }).argc -
                    (cmd.argc + 1)) + 1 := by omega
              rw [e, List.range'_succ]
      · rw [parse_loop.eq_def, parse_loop_writes.eq_def]
        simp only [hroom, if_false]
        simp

/-- C16, evaluated.  For the segment `a b c d e f` (six tokens) both
`parse_command` and `execute_sequential_commands` write the arguments at
indices 0 to 5 of `args` and then the terminating `NULL` at index 6, which
is not below the capacity `MAX_ARGS = 6`. -/
theorem args_terminator_out_of_bounds :
    parse_command_writes "a b c d e f".toList = [0, 1, 2, 3, 4, 5, 6] ∧
    sequential_command_writes "a b c d e f".toList = [0, 1, 2, 3, 4, 5, 6] ∧
    ¬ writes_in_bounds (parse_command_writes "a b c d e f".toList) ∧
    ¬ writes_in_bounds (sequential_command_writes "a b c d e f".toList) := by
  unfold writes_in_bounds
  decide

/-- The writes of `parse_command` are at the indices 0 to `argc`, and `argc`
is at most `MAX_ARGS`: the arguments are stored inside the array, and the
terminator is inside it exactly when fewer than `MAX_ARGS` arguments were
stored. -/
theorem parse_command_writes_spec (input : CStr) :
    parse_command_writes input =
      List.range ((parse_loop (strtok_all ' ' (strncpy input (MAX_CMD_LEN - 1)))
        Command.zero).argc + 1) ∧
    (parse_loop (strtok_all ' ' (strncpy input (MAX_CMD_LEN - 1))) Command.zero).argc ≤
      MAX_ARGS := by
  have h := parse_loop_writes_spec _ (strtok_all ' ' (strncpy input (MAX_CMD_LEN - 1)))
    Command.zero (Nat.le_refl _)
  have h0 : Command.zero.argc = 0 := rfl
  rw [h0] at h
  refine ⟨?_, h.2.2 (by decide)⟩
  unfold parse_command_writes
  simp only
  rw [h.1, Nat.sub_zero, List.range_succ, List.range_eq_range']

end VortexShell
